import Mathlib

/-!
Shallow embedding of `main.py` (a GitHub cleanup CLI) and proofs about it.

The embedding models the program at the level of the HTTP requests it
issues: each operation is a pure function from a "world" (the responses
the API would return) to the list of requests sent plus the final counter,
with raised Python exceptions modelled as `Except.error`.
-/

namespace Nuke

/-- Naive UTC datetime to second precision, mirroring the fields of a Python
`datetime` value as used by `main.py` (the `strptime` format used there
yields zero microseconds). -/
structure DateTime where
  year : Int
  month : Nat
  day : Nat
  hour : Nat
  minute : Nat
  second : Nat
deriving DecidableEq

def isLeap (y : Int) : Bool := y % 4 == 0 && (y % 100 != 0 || y % 400 == 0)

def daysInMonth (y : Int) (m : Nat) : Nat :=
  if m == 2 then (if isLeap y then 29 else 28)
  else if m == 4 || m == 6 || m == 9 || m == 11 then 30
  else 31

/-- Days since 1970-01-01 in the proleptic Gregorian calendar (the standard
civil-calendar conversion used to model Python date arithmetic). -/
def daysFromCivil (y : Int) (m d : Nat) : Int :=
  let y2 : Int := if m ≤ 2 then y - 1 else y
  let era : Int := Int.ediv y2 400
  let yoe : Nat := (y2 - era * 400).toNat
  let mp : Nat := (m + 9) % 12
  let doy : Nat := (153 * mp + 2) / 5 + d - 1
  let doe : Nat := yoe * 365 + yoe / 4 - yoe / 100 + doy
  era * 146097 + (doe : Int) - 719468

/-- Inverse of `daysFromCivil`: (year, month, day) from a day number. -/
def civilFromDays (z0 : Int) : Int × Nat × Nat :=
  let z : Int := z0 + 719468
  let era : Int := Int.ediv z 146097
  let doe : Nat := (z - era * 146097).toNat
  let yoe : Nat := (doe - doe / 1460 + doe / 36524 - doe / 146096) / 365
  let y2 : Int := (yoe : Int) + era * 400
  let doy : Nat := doe - (365 * yoe + yoe / 4 - yoe / 100)
  let mp : Nat := (5 * doy + 2) / 153
  let d : Nat := doy - (153 * mp + 2) / 5 + 1
  let m : Nat := if mp < 10 then mp + 3 else mp - 9
  (if m ≤ 2 then y2 + 1 else y2, m, d)

def toSecs (t : DateTime) : Int :=
  daysFromCivil t.year t.month t.day * 86400 + t.hour * 3600 + t.minute * 60 + t.second

def ofSecs (z : Int) : DateTime :=
  let day := Int.ediv z 86400
  let rem := (z - day * 86400).toNat
  let c := civilFromDays day
  ⟨c.1, c.2.1, c.2.2, rem / 3600, rem % 3600 / 60, rem % 60⟩

/-- `t - timedelta(days = n)`. -/
def subDays (t : DateTime) (n : Int) : DateTime := ofSecs (toSecs t - n * 86400)

/-- `t - timedelta(hours = n)`. -/
def subHours (t : DateTime) (n : Int) : DateTime := ofSecs (toSecs t - n * 3600)

/-- `t - relativedelta(months = n)`: calendar-aware month subtraction with
day-of-month clamping, as implemented by `dateutil.relativedelta`. -/
def subMonths (t : DateTime) (n : Int) : DateTime :=
  let total : Int := t.year * 12 + (t.month : Int) - 1 - n
  let y : Int := Int.ediv total 12
  let m : Nat := (Int.emod total 12).toNat + 1
  { t with year := y, month := m, day := min t.day (daysInMonth y m) }

/-- Python `datetime` comparison: lexicographic on the fields. -/
def dtLt (a b : DateTime) : Bool :=
  if a.year ≠ b.year then decide (a.year < b.year)
  else if a.month ≠ b.month then decide (a.month < b.month)
  else if a.day ≠ b.day then decide (a.day < b.day)
  else if a.hour ≠ b.hour then decide (a.hour < b.hour)
  else if a.minute ≠ b.minute then decide (a.minute < b.minute)
  else decide (a.second < b.second)

def isPySpace (c : Char) : Bool :=
  c == ' ' || c == '\t' || c == '\n' || c == '\r' || c == '\x0b' || c == '\x0c'

def digitVal (c : Char) : Nat := c.toNat - 48

def digitsCore : List Char → Nat → Option Nat
  | [], acc => some acc
  | '_' :: c :: rest, acc =>
    if c.isDigit then digitsCore rest (acc * 10 + digitVal c) else none
  | ['_'], _ => none
  | c :: rest, acc =>
    if c.isDigit then digitsCore rest (acc * 10 + digitVal c) else none

def digitsOf : List Char → Option Nat
  | [] => none
  | c :: rest => if c.isDigit then digitsCore rest (digitVal c) else none

/-- Python `int(s)`: optional surrounding ASCII whitespace, an optional sign,
then decimal digits with single underscores permitted between digits.
`none` models the raised `ValueError`. -/
def pyInt (s : String) : Option Int :=
  let l := ((s.data.dropWhile isPySpace).reverse.dropWhile isPySpace).reverse
  match l with
  | '+' :: rest => (digitsOf rest).map (fun n => (n : Int))
  | '-' :: rest => (digitsOf rest).map (fun n => -(n : Int))
  | rest => (digitsOf rest).map (fun n => (n : Int))

def invalidTimeFrameMsg : String :=
  "ValueError: Invalid time frame format. Use 1m, 30d, or 24h."

def intLiteralErrMsg : String := "ValueError: invalid literal for int() with base 10"

def strLast (s : String) : Option Char := s.data.getLast?

def strDropLast (s : String) : String := ⟨s.data.dropLast⟩

/-- `calculate_cutoff_date` from `main.py`: dispatch on the final character of
the time-frame string (Python `str.endswith` with a one-character suffix is
exactly a last-character test), parse the remaining prefix `s[:-1]` with
`int`, and subtract months, days or hours from `now` (the value of
`datetime.utcnow()`, passed in explicitly).  Raised `ValueError`s are
modelled as `Except.error`. -/
def calculate_cutoff_date (now : DateTime) (time_frame_gt : String) : Except String DateTime :=
  if strLast time_frame_gt == some 'm' then
    match pyInt (strDropLast time_frame_gt) with
    | some n => .ok (subMonths now n)
    | none => .error intLiteralErrMsg
  else if strLast time_frame_gt == some 'd' then
    match pyInt (strDropLast time_frame_gt) with
    | some n => .ok (subDays now n)
    | none => .error intLiteralErrMsg
  else if strLast time_frame_gt == some 'h' then
    match pyInt (strDropLast time_frame_gt) with
    | some n => .ok (subHours now n)
    | none => .error intLiteralErrMsg
  else .error invalidTimeFrameMsg

/-- Grab up to `fuel` leading decimal digits, returning how many were read,
their value, and the rest of the input. -/
def grabDigits : Nat → List Char → Nat → Nat → Nat × Nat × List Char
  | 0, l, acc, cnt => (cnt, acc, l)
  | _ + 1, [], acc, cnt => (cnt, acc, [])
  | fuel + 1, c :: rest, acc, cnt =>
    if c.isDigit then grabDigits fuel rest (acc * 10 + digitVal c) (cnt + 1)
    else (cnt, acc, c :: rest)

def expectChar (c : Char) : List Char → Option (List Char)
  | x :: rest => if x == c then some rest else none
  | [] => none

/-- `datetime.strptime(s, "%Y-%m-%dT%H:%M:%SZ")`: a one-to-four digit year and
one-to-two digit remaining fields, separated by the literal characters of the
format and validated as a calendar date and time of day.  `none` models the
raised `ValueError`. -/
def parseDT (s : String) : Option DateTime := do
  let (cy, y, r1) := grabDigits 4 s.data 0 0
  if cy == 0 || y == 0 then none else
  let r2 ← expectChar '-' r1
  let (cm, mo, r3) := grabDigits 2 r2 0 0
  if cm == 0 || mo < 1 || 12 < mo then none else
  let r4 ← expectChar '-' r3
  let (cd, d, r5) := grabDigits 2 r4 0 0
  if cd == 0 || d < 1 || daysInMonth (y : Int) mo < d then none else
  let r6 ← expectChar 'T' r5
  let (ch, h, r7) := grabDigits 2 r6 0 0
  if ch == 0 || 23 < h then none else
  let r8 ← expectChar ':' r7
  let (cmi, mi, r9) := grabDigits 2 r8 0 0
  if cmi == 0 || 59 < mi then none else
  let r10 ← expectChar ':' r9
  let (cs, sec, r11) := grabDigits 2 r10 0 0
  if cs == 0 || 59 < sec then none else
  let r12 ← expectChar 'Z' r11
  if r12.isEmpty then some ⟨(y : Int), mo, d, h, mi, sec⟩ else none

/-! ## HTTP requests as observable events -/

/-- A value occurring in a query string or JSON payload. -/
inductive PVal where
  | s (v : String)
  | n (v : Int)
deriving DecidableEq

abbrev Params := List (String × PVal)

/-- One HTTP request as actually issued by the code.  `query` records the
query-string parameters (the `params=` keyword of `requests.get`) and `body`
the JSON payload (the `json=` keyword); `main.py` passes its paging dict
sometimes as one, sometimes as the other, and sometimes not at all. -/
inductive Ev where
  | get (url : String) (query : Params) (body : Params)
  | del (url : String)
  | patch (url : String) (body : Params)
deriving DecidableEq

def GITHUB_API_URL : String := "https://api.github.com"

def EXCLUDED_BRANCHES : List String := ["main", "master"]

def MAX_RETRIES : Nat := 3

def RETRY_DELAY : Nat := 2

def releasesUrl (org repo : String) : String :=
  GITHUB_API_URL ++ "/repos/" ++ org ++ "/" ++ repo ++ "/releases"

def releaseDeleteUrl (org repo : String) (id : Int) : String :=
  releasesUrl org repo ++ "/" ++ toString id

def tagsUrl (org repo : String) : String :=
  GITHUB_API_URL ++ "/repos/" ++ org ++ "/" ++ repo ++ "/git/refs/tags"

def tagDeleteUrl (org repo ref : String) : String :=
  GITHUB_API_URL ++ "/repos/" ++ org ++ "/" ++ repo ++ "/git/" ++ ref

def branchesUrl (org repo : String) : String :=
  GITHUB_API_URL ++ "/repos/" ++ org ++ "/" ++ repo ++ "/branches"

def branchDeleteUrl (org repo name : String) : String :=
  GITHUB_API_URL ++ "/repos/" ++ org ++ "/" ++ repo ++ "/git/refs/heads/" ++ name

def issuesUrl (org repo : String) : String :=
  GITHUB_API_URL ++ "/repos/" ++ org ++ "/" ++ repo ++ "/issues"

def issuePatchUrl (org repo : String) (number : Int) : String :=
  issuesUrl org repo ++ "/" ++ toString number

def repoUrl (org repo : String) : String :=
  GITHUB_API_URL ++ "/repos/" ++ org ++ "/" ++ repo

def orgReposUrl (org : String) : String :=
  GITHUB_API_URL ++ "/orgs/" ++ org ++ "/repos"

/-- The paging dict `{"per_page": 50, "page": page}`. -/
def pageParams (page : Nat) : Params := [("per_page", .n 50), ("page", .n (page : Int))]

/-- `if limit and count >= limit:` — Python truthiness of the optional integer
`limit` (both `None` and `0` are falsy) followed by the comparison. -/
def limitHit (limit : Option Int) (count : Nat) : Bool :=
  match limit with
  | none => false
  | some l => l != 0 && decide (l ≤ (count : Int))

/-! ## The retrying request executor -/

inductive Method where
  | GET
  | DELETE
  | PATCH
  | OTHER (s : String)
deriving DecidableEq

def supportedMethod : Method → Bool
  | .OTHER _ => false
  | _ => true

/-- An HTTP response at the transport level: status code and body text. -/
structure Attempt where
  status : Int
  text : String
deriving DecidableEq

/-- Events of the retry loop: the i-th transport call (with the status it
received) and the `time.sleep` pauses. -/
inductive REv where
  | call (attempt : Nat) (status : Int)
  | sleep (seconds : Nat)
deriving DecidableEq

/-- The `for attempt in range(retries)` loop of `make_request_with_retries`:
`resp i` is the response the transport returns to the i-th call.  A 403
sleeps 60 and goes to the next iteration; 200/204 returns at once; any other
status sleeps `RETRY_DELAY` and goes to the next iteration; when the loop is
exhausted the response of the last call is returned.  An unsupported method
raises `ValueError`; falling off a zero-iteration loop leaves `response`
unbound. -/
def retryLoop (m : Method) (resp : Nat → Attempt) :
    Nat → Nat → Option Attempt → Except String Attempt × List REv
  | _, 0, last =>
    (match last with
     | some r => .ok r
     | none => .error "UnboundLocalError: response", [])
  | i, fuel + 1, _ =>
    if supportedMethod m then
      let r := resp i
      if r.status == 403 then
        let rec2 := retryLoop m resp (i + 1) fuel (some r)
        (rec2.1, .call i r.status :: .sleep 60 :: rec2.2)
      else if r.status == 200 || r.status == 204 then
        (.ok r, [.call i r.status])
      else
        let rec2 := retryLoop m resp (i + 1) fuel (some r)
        (rec2.1, .call i r.status :: .sleep RETRY_DELAY :: rec2.2)
    else (.error "ValueError: Unsupported HTTP method", [])

def make_request_with_retries (m : Method) (resp : Nat → Attempt) (retries : Nat) :
    Except String Attempt × List REv :=
  retryLoop m resp 0 retries none

/-! ## Release cleanup (all transport calls are direct, bypassing the executor) -/

structure Release where
  id : Int
  created_at : String
deriving DecidableEq

/-- Responses for one run of `delete_releases`: the body of each successive
listing call (status code and JSON list), with pages beyond the list empty,
and the status each direct DELETE receives, keyed by release id. -/
structure RelWorld where
  pages : List (Int × List Release)
  deleteStatus : Int → Int

/-- Inner `for release in releases` loop of `delete_releases`: parse each
`created_at`, issue one direct DELETE for each release strictly older than
the cutoff, count 204 responses, and `return` as soon as the limit check
fires.  The Bool flags that early `return`. -/
def drPage (delSt : Int → Int) (org repo : String) (cutoff : DateTime) (limit : Option Int) :
    List Release → Nat → Except String (List Ev × Nat × Bool)
  | [], count => .ok ([], count, false)
  | r :: rest, count =>
    match parseDT r.created_at with
    | none => .error "ValueError: time data does not match format"
    | some d =>
      if dtLt d cutoff then
        let ev : Ev := .del (releaseDeleteUrl org repo r.id)
        if delSt r.id == 204 then
          if limitHit limit (count + 1) then .ok ([ev], count + 1, true)
          else
            match drPage delSt org repo cutoff limit rest (count + 1) with
            | .error e => .error e
            | .ok (evs, c, early) => .ok (ev :: evs, c, early)
        else
          match drPage delSt org repo cutoff limit rest count with
          | .error e => .error e
          | .ok (evs, c, early) => .ok (ev :: evs, c, early)
      else drPage delSt org repo cutoff limit rest count

/-- Outer `while True` loop of `delete_releases`: list a page with a direct
GET (paging dict passed as real query parameters), abort on a non-200
listing, stop on an empty page, process the page, stop on an early return
or a short page, else advance the page number. -/
def drPages (delSt : Int → Int) (org repo : String) (cutoff : DateTime) (limit : Option Int) :
    List (Int × List Release) → Nat → Nat → Except String (List Ev × Nat)
  | [], page, count => .ok ([.get (releasesUrl org repo) (pageParams page) []], count)
  | (st, rels) :: rest, page, count =>
    let gev : Ev := .get (releasesUrl org repo) (pageParams page) []
    if st != 200 then .ok ([gev], count)
    else if rels.isEmpty then .ok ([gev], count)
    else
      match drPage delSt org repo cutoff limit rels count with
      | .error e => .error e
      | .ok (evs, c, early) =>
        if early then .ok (gev :: evs, c)
        else if rels.length < 50 then .ok (gev :: evs, c)
        else
          match drPages delSt org repo cutoff limit rest (page + 1) c with
          | .error e => .error e
          | .ok (evs2, c2) => .ok (gev :: evs ++ evs2, c2)

/-- `delete_releases` from `main.py`.  `time_frame_gt` is the optional CLI
flag (`None` makes `.endswith` raise `AttributeError`); the cutoff is
computed before any request. -/
def delete_releases (now : DateTime) (w : RelWorld) (org repo : String)
    (limit : Option Int) (time_frame_gt : Option String) : Except String (List Ev × Nat) :=
  match time_frame_gt with
  | none => .error "AttributeError: NoneType object has no attribute endswith"
  | some s =>
    match calculate_cutoff_date now s with
    | .error e => .error e
    | .ok cutoff => drPages w.deleteStatus org repo cutoff limit w.pages 1 0

/-! ## Tag cleanup -/

structure Tag where
  ref : String
deriving DecidableEq

/-- Responses for one run of `delete_tags`: the final result of each listing
call made through the executor, and the final DELETE status keyed by ref. -/
structure TagWorld where
  pages : List (Int × List Tag)
  deleteStatus : String → Int

def dtagPage (delSt : String → Int) (org repo : String) (limit : Option Int) :
    List Tag → Nat → List Ev × Nat × Bool
  | [], count => ([], count, false)
  | t :: rest, count =>
    let ev : Ev := .del (tagDeleteUrl org repo t.ref)
    if delSt t.ref == 204 then
      if limitHit limit (count + 1) then ([ev], count + 1, true)
      else
        let r := dtagPage delSt org repo limit rest (count + 1)
        (ev :: r.1, r.2.1, r.2.2)
    else
      let r := dtagPage delSt org repo limit rest count
      (ev :: r.1, r.2.1, r.2.2)

/-- Outer loop of `delete_tags`: the paging dict is passed as a JSON body
(`json=params`) rather than query parameters; a failed listing aborts; an
empty page stops; otherwise the page number is advanced — there is no
short-page check. -/
def dtagPages (delSt : String → Int) (org repo : String) (limit : Option Int) :
    List (Int × List Tag) → Nat → Nat → List Ev × Nat
  | [], page, count => ([.get (tagsUrl org repo) [] (pageParams page)], count)
  | (st, tags) :: rest, page, count =>
    let gev : Ev := .get (tagsUrl org repo) [] (pageParams page)
    if st != 200 then ([gev], count)
    else if tags.isEmpty then ([gev], count)
    else
      let r := dtagPage delSt org repo limit tags count
      if r.2.2 then (gev :: r.1, r.2.1)
      else
        let r2 := dtagPages delSt org repo limit rest (page + 1) r.2.1
        (gev :: r.1 ++ r2.1, r2.2)

def delete_tags (w : TagWorld) (org repo : String) (limit : Option Int) : List Ev × Nat :=
  dtagPages w.deleteStatus org repo limit w.pages 1 0

/-! ## Branch cleanup -/

structure Branch where
  name : String
deriving DecidableEq

structure BranchWorld where
  pages : List (Int × List Branch)
  deleteStatus : String → Int

/-- Inner loop of `delete_branches`: a branch whose name is in
`EXCLUDED_BRANCHES` is passed over entirely (no request). -/
def dbrPage (delSt : String → Int) (org repo : String) (limit : Option Int) :
    List Branch → Nat → List Ev × Nat × Bool
  | [], count => ([], count, false)
  | b :: rest, count =>
    if b.name ∉ EXCLUDED_BRANCHES then
      let ev : Ev := .del (branchDeleteUrl org repo b.name)
      if delSt b.name == 204 then
        if limitHit limit (count + 1) then ([ev], count + 1, true)
        else
          let r := dbrPage delSt org repo limit rest (count + 1)
          (ev :: r.1, r.2.1, r.2.2)
      else
        let r := dbrPage delSt org repo limit rest count
        (ev :: r.1, r.2.1, r.2.2)
    else dbrPage delSt org repo limit rest count

def dbrPages (delSt : String → Int) (org repo : String) (limit : Option Int) :
    List (Int × List Branch) → Nat → Nat → List Ev × Nat
  | [], page, count => ([.get (branchesUrl org repo) [] (pageParams page)], count)
  | (st, brs) :: rest, page, count =>
    let gev : Ev := .get (branchesUrl org repo) [] (pageParams page)
    if st != 200 then ([gev], count)
    else if brs.isEmpty then ([gev], count)
    else
      let r := dbrPage delSt org repo limit brs count
      if r.2.2 then (gev :: r.1, r.2.1)
      else
        let r2 := dbrPages delSt org repo limit rest (page + 1) r.2.1
        (gev :: r.1 ++ r2.1, r2.2)

def delete_branches (w : BranchWorld) (org repo : String) (limit : Option Int) : List Ev × Nat :=
  dbrPages w.deleteStatus org repo limit w.pages 1 0

/-! ## Issue closing -/

structure Issue where
  number : Int
  title : String
deriving DecidableEq

structure IssueWorld where
  pages : List (Int × List Issue)
  patchStatus : Int → Int

def ciPage (pSt : Int → Int) (org repo : String) (limit : Option Int) :
    List Issue → Nat → List Ev × Nat × Bool
  | [], count => ([], count, false)
  | i :: rest, count =>
    let ev : Ev := .patch (issuePatchUrl org repo i.number) [("state", .s "closed")]
    if pSt i.number == 200 then
      if limitHit limit (count + 1) then ([ev], count + 1, true)
      else
        let r := ciPage pSt org repo limit rest (count + 1)
        (ev :: r.1, r.2.1, r.2.2)
    else
      let r := ciPage pSt org repo limit rest count
      (ev :: r.1, r.2.1, r.2.2)

/-- Outer loop of `close_issues`.  The code builds a paging dict
`{"state": "open", "per_page": 50, "page": ...}` but never passes it to the
listing call (`make_request_with_retries(url, "GET", headers=headers)`), so
every listing request goes out with no query parameters and no body; the
successive calls simply receive successive responses. -/
def ciPages (pSt : Int → Int) (org repo : String) (limit : Option Int) :
    List (Int × List Issue) → Nat → List Ev × Nat
  | [], count => ([.get (issuesUrl org repo) [] []], count)
  | (st, issues) :: rest, count =>
    let gev : Ev := .get (issuesUrl org repo) [] []
    if st != 200 then ([gev], count)
    else if issues.isEmpty then ([gev], count)
    else
      let r := ciPage pSt org repo limit issues count
      if r.2.2 then (gev :: r.1, r.2.1)
      else
        let r2 := ciPages pSt org repo limit rest r.2.1
        (gev :: r.1 ++ r2.1, r2.2)

def close_issues (w : IssueWorld) (org repo : String) (limit : Option Int) : List Ev × Nat :=
  ciPages w.patchStatus org repo limit w.pages 0

/-! ## Change operations -/

/-- Responses for the `change` subcommand: the organization repo listing
(status and repository names) and the final status of each PATCH, keyed by
repository name. -/
structure ChangeWorld where
  listStatus : Int
  repoNames : List String
  patchStatus : String → Int

def change_visibility_single (org repo visibility : String) : List Ev :=
  [.patch (repoUrl org repo) [("visibility", .s visibility)]]

def change_visibility_all (w : ChangeWorld) (org visibility : String) : List Ev :=
  if w.listStatus != 200 then [.get (orgReposUrl org) [] []]
  else
    .get (orgReposUrl org) [] [] ::
      w.repoNames.map (fun n => .patch (repoUrl org n) [("visibility", .s visibility)])

def change_repository_name (org repo new_name : String) : List Ev :=
  [.patch (repoUrl org repo) [("name", .s new_name)]]

/-! ## The command-line front end -/

structure CleanupArgs where
  org : String
  repo : String
  token : String
  type : Option String
  time_frame_gt : Option String
  limit : Option Int

structure ChangeArgs where
  org : String
  token : String
  repo : Option String
  all_repos : Bool
  visibility : Option String
  change_name : Option String

inductive Args where
  | cleanup (a : CleanupArgs)
  | change (a : ChangeArgs)

structure World where
  rel : RelWorld
  tags : TagWorld
  branches : BranchWorld
  issues : IssueWorld
  change : ChangeWorld

/-- Python truthiness of an optional string (`None` and `""` are falsy). -/
def optTruthy : Option String → Bool
  | none => false
  | some s => s != ""

/-- The dispatch in `main()` after argument parsing: the result is the full
request trace, or the uncaught exception that escapes `main` (`main.py` has
no try/except anywhere).  Branches that merely print a usage diagnostic
return an empty trace. -/
def mainRun (now : DateTime) (w : World) : Args → Except String (List Ev)
  | .cleanup a =>
    if a.type == some "releases" then
      match delete_releases now w.rel a.org a.repo a.limit a.time_frame_gt with
      | .error e => .error e
      | .ok (evs, _) => .ok evs
    else if a.type == some "tags" then .ok (delete_tags w.tags a.org a.repo a.limit).1
    else if a.type == some "branches" then .ok (delete_branches w.branches a.org a.repo a.limit).1
    else if a.type == some "issues" then .ok (close_issues w.issues a.org a.repo a.limit).1
    else .ok []
  | .change a =>
    if optTruthy a.change_name then
      if !optTruthy a.repo then .ok []
      else .ok (change_repository_name a.org (a.repo.getD "") (a.change_name.getD ""))
    else if a.all_repos then
      if optTruthy a.visibility then .ok (change_visibility_all w.change a.org (a.visibility.getD ""))
      else .ok []
    else if optTruthy a.repo then
      if optTruthy a.visibility then
        .ok (change_visibility_single a.org (a.repo.getD "") (a.visibility.getD ""))
      else .ok []
    else .ok []

/-! ## Derived observations and specification-side definitions -/

def isGet : Ev → Bool
  | .get _ _ _ => true
  | _ => false

def isDel : Ev → Bool
  | .del _ => true
  | _ => false

/-- Number of listing requests in a trace. -/
def countGets : List Ev → Nat
  | [] => 0
  | e :: evs => (if isGet e then 1 else 0) + countGets evs

/-- The DELETE requests of a trace, in order. -/
def delsOf : List Ev → List Ev
  | [] => []
  | e :: evs => if isDel e then e :: delsOf evs else delsOf evs

/-- A release strictly older than the cutoff (unparseable timestamps are
never reached on a completed run). -/
def isOld (cutoff : DateTime) (r : Release) : Bool :=
  match parseDT r.created_at with
  | some d => dtLt d cutoff
  | none => false

def oldCandidates (cutoff : DateTime) (rels : List Release) : List Release :=
  rels.filter (isOld cutoff)

/-- The releases the outer loop of `delete_releases` iterates over: pages up
to the first failed listing, empty page, or short page (inclusive). -/
def processedItems : List (Int × List Release) → List Release
  | [] => []
  | (st, items) :: rest =>
    if st != 200 then []
    else if items.isEmpty then []
    else if items.length < 50 then items
    else items ++ processedItems rest

/-- How many of the old candidates receive a 204 on their DELETE. -/
def succCount (delSt : Int → Int) (cutoff : DateTime) (rels : List Release) : Nat :=
  ((oldCandidates cutoff rels).filter (fun r => delSt r.id == 204)).length

def isSuccess (a : Attempt) : Bool := a.status == 200 || a.status == 204

/-- Sleep the retry loop performs after a non-success attempt of this status. -/
def attemptSleep (st : Int) : Nat := if st == 403 then 60 else RETRY_DELAY

/-- The trace of `k` consecutive failed attempts starting at attempt `i`:
each transport call followed by its cooldown or delay. -/
def failTrace (resp : Nat → Attempt) : Nat → Nat → List REv
  | _, 0 => []
  | i, k + 1 =>
    .call i (resp i).status :: .sleep (attemptSleep (resp i).status) :: failTrace resp (i + 1) k

/-- Spec (from the claim): number of listing calls when the loop advances
exactly while a page is full (`50 ≤` page size); a short or empty page is the
last one listed, and when the collection runs out one further call returns
the empty page. -/
def specCallsShortStop : List Nat → Nat
  | [] => 1
  | n :: rest => if n < 50 then 1 else 1 + specCallsShortStop rest

/-- Spec (from the claim, corrected): number of listing calls when the loop
advances exactly while a page is nonempty. -/
def specCallsEmptyStop : List Nat → Nat
  | [] => 1
  | n :: rest => if n == 0 then 1 else 1 + specCallsEmptyStop rest

/-! ## Concrete inputs used by counterexamples and witnesses -/

def now0 : DateTime := ⟨2024, 6, 1, 12, 0, 0⟩

/-- Transport stream that answers 403 three times, then 200. -/
def respC3 : Nat → Attempt := fun k => if k < 3 then ⟨403, "rate limited"⟩ else ⟨200, "ok"⟩

/-- Transport stream: one 500, then 200. -/
def respC7 : Nat → Attempt := fun k => if k == 0 then ⟨500, "boom"⟩ else ⟨200, "ok"⟩

/-- One page holding a single tag: fewer than 50 items, yet not empty. -/
def wTagsC4 : TagWorld := ⟨[(200, [⟨"refs/tags/v1"⟩])], fun _ => 204⟩

def wIssuesC5 : IssueWorld := ⟨[(200, [⟨7, "t"⟩])], fun _ => 200⟩

def wBranchesC1 : BranchWorld :=
  ⟨[(200, [⟨"main"⟩, ⟨"feature"⟩, ⟨"master"⟩])], fun _ => 204⟩

def relOld : Release := ⟨11, "2020-01-02T03:04:05Z"⟩

def relNew : Release := ⟨12, "2024-06-01T00:00:00Z"⟩

def wRelC2 : RelWorld := ⟨[(200, [relOld, relNew])], fun _ => 204⟩

/-- Two old releases whose DELETEs are answered 403 and 204 respectively. -/
def wRelC10 : RelWorld :=
  ⟨[(200, [relOld, ⟨13, "2021-05-06T07:08:09Z"⟩])], fun id => if id == 11 then 403 else 204⟩

/-- One short page with one old release, every DELETE answered 204. -/
def wRelC4w : RelWorld := ⟨[(200, [relOld])], fun _ => 204⟩

def wTrivC8 : World :=
  ⟨⟨[], fun _ => 204⟩, ⟨[], fun _ => 204⟩, ⟨[], fun _ => 204⟩, ⟨[], fun _ => 200⟩,
   ⟨200, [], fun _ => 200⟩⟩

def argsRelBadTf : CleanupArgs :=
  ⟨"octo", "nuke", "tok", some "releases", some "soon", none⟩

def argsTagsC8 : CleanupArgs :=
  ⟨"octo", "nuke", "tok", some "tags", none, none⟩

end Nuke

namespace Nuke

/-! ## Helper lemmas: a limit of `some 0` behaves as no limit -/

theorem limitHit_none (c : Nat) : limitHit none c = false := rfl

theorem limitHit_some_zero (c : Nat) : limitHit (some 0) c = false := by
  simp [limitHit]

theorem drPage_some_zero (delSt : Int → Int) (org repo : String) (cutoff : DateTime) :
    ∀ (rels : List Release) (c : Nat),
      drPage delSt org repo cutoff (some 0) rels c =
        drPage delSt org repo cutoff none rels c := by
  intro rels
  induction rels with
  | nil => intro c; rfl
  | cons r rest ih =>
    intro c
    simp only [drPage, limitHit_some_zero, limitHit_none, ih]

theorem drPages_some_zero (delSt : Int → Int) (org repo : String) (cutoff : DateTime) :
    ∀ (pages : List (Int × List Release)) (page c : Nat),
      drPages delSt org repo cutoff (some 0) pages page c =
        drPages delSt org repo cutoff none pages page c := by
  intro pages
  induction pages with
  | nil => intro page c; rfl
  | cons p rest ih =>
    intro page c
    simp only [drPages, drPage_some_zero, ih]

theorem dtagPage_some_zero (delSt : String → Int) (org repo : String) :
    ∀ (tags : List Tag) (c : Nat),
      dtagPage delSt org repo (some 0) tags c = dtagPage delSt org repo none tags c := by
  intro tags
  induction tags with
  | nil => intro c; rfl
  | cons t rest ih =>
    intro c
    simp only [dtagPage, limitHit_some_zero, limitHit_none, ih]

theorem dtagPages_some_zero (delSt : String → Int) (org repo : String) :
    ∀ (pages : List (Int × List Tag)) (page c : Nat),
      dtagPages delSt org repo (some 0) pages page c =
        dtagPages delSt org repo none pages page c := by
  intro pages
  induction pages with
  | nil => intro page c; rfl
  | cons p rest ih =>
    intro page c
    simp only [dtagPages, dtagPage_some_zero, ih]

theorem dbrPage_some_zero (delSt : String → Int) (org repo : String) :
    ∀ (brs : List Branch) (c : Nat),
      dbrPage delSt org repo (some 0) brs c = dbrPage delSt org repo none brs c := by
  intro brs
  induction brs with
  | nil => intro c; rfl
  | cons b rest ih =>
    intro c
    simp only [dbrPage, limitHit_some_zero, limitHit_none, ih]

theorem dbrPages_some_zero (delSt : String → Int) (org repo : String) :
    ∀ (pages : List (Int × List Branch)) (page c : Nat),
      dbrPages delSt org repo (some 0) pages page c =
        dbrPages delSt org repo none pages page c := by
  intro pages
  induction pages with
  | nil => intro page c; rfl
  | cons p rest ih =>
    intro page c
    simp only [dbrPages, dbrPage_some_zero, ih]

theorem ciPage_some_zero (pSt : Int → Int) (org repo : String) :
    ∀ (issues : List Issue) (c : Nat),
      ciPage pSt org repo (some 0) issues c = ciPage pSt org repo none issues c := by
  intro issues
  induction issues with
  | nil => intro c; rfl
  | cons i rest ih =>
    intro c
    simp only [ciPage, limitHit_some_zero, limitHit_none, ih]

theorem ciPages_some_zero (pSt : Int → Int) (org repo : String) :
    ∀ (pages : List (Int × List Issue)) (c : Nat),
      ciPages pSt org repo (some 0) pages c = ciPages pSt org repo none pages c := by
  intro pages
  induction pages with
  | nil => intro c; rfl
  | cons p rest ih =>
    intro c
    simp only [ciPages, ciPage_some_zero, ih]

/-- C9: in all four cleanup operations the limit check is
`if limit and count >= limit`, so a caller-supplied limit of 0 is falsy and
is treated exactly as no limit at all: the run (its requests and its final
count) is identical to a run with no limit, deleting or closing without
bound rather than stopping at zero items. -/
theorem falsy_limit_means_no_limit (now : DateTime) (w : World) (org repo : String)
    (tf : Option String) :
    delete_releases now w.rel org repo (some 0) tf = delete_releases now w.rel org repo none tf ∧
    delete_tags w.tags org repo (some 0) = delete_tags w.tags org repo none ∧
    delete_branches w.branches org repo (some 0) = delete_branches w.branches org repo none ∧
    close_issues w.issues org repo (some 0) = close_issues w.issues org repo none := by
  refine ⟨?_, ?_, ?_, ?_⟩
  · cases tf with
    | none => rfl
    | some s =>
      simp only [delete_releases]
      cases calculate_cutoff_date now s with
      | error e => rfl
      | ok cutoff => simp only [drPages_some_zero]
  · simp only [delete_tags, dtagPages_some_zero]
  · simp only [delete_branches, dbrPages_some_zero]
  · simp only [close_issues, ciPages_some_zero]

end Nuke

namespace Nuke

/-! ## C5: the issue-listing request carries no parameters -/

/-- C5 (code bug): run `close_issues` against a world with one open issue.
The listing requests issued (first and last events) carry an empty query
string and an empty JSON body: the `{"state": "open", "per_page": 50,
"page": N}` dict built by the code is never passed to the listing call, so
no listing request ever carries `state=open`, `per_page=50` or a page
number.  The second conjunct checks every GET of the run for emptiness. -/
theorem close_issues_listing_params_bug :
    close_issues wIssuesC5 "octo" "nuke" none =
      ([.get (issuesUrl "octo" "nuke") [] [],
        .patch (issuePatchUrl "octo" "nuke" 7) [("state", PVal.s "closed")],
        .get (issuesUrl "octo" "nuke") [] []], 1) ∧
    ((close_issues wIssuesC5 "octo" "nuke" none).1.all
      (fun e => match e with
        | .get _ q b => q.isEmpty && b.isEmpty
        | _ => true)) = true :=
  ⟨rfl, rfl⟩

/-! ## Retry executor lemmas -/

theorem success_beq_403 (a : Attempt) (h : isSuccess a = true) : (a.status == 403) = false := by
  simp only [isSuccess, Bool.or_eq_true, beq_iff_eq] at h
  rcases h with h | h <;> rw [h] <;> decide

theorem retryLoop_all403 (m : Method) (resp : Nat → Attempt) (hm : supportedMethod m = true) :
    ∀ (fuel i : Nat) (last : Option Attempt), 1 ≤ fuel →
      (∀ k, k < fuel → (resp (i + k)).status = 403) →
      retryLoop m resp i fuel last =
        (.ok (resp (i + fuel - 1)), failTrace resp i fuel) := by
  intro fuel
  induction fuel with
  | zero => intro i last h; omega
  | succ f ih =>
    intro i last _ hall
    have h0 : (resp i).status = 403 := by simpa using hall 0 (by omega)
    simp only [retryLoop, hm, if_true, h0]
    cases f with
    | zero =>
      simp only [retryLoop]
      simp [failTrace, h0, attemptSleep]
    | succ f2 =>
      have hrec := ih (i + 1) (some (resp i)) (by omega)
        (fun k hk => by
          have he : i + 1 + k = i + (k + 1) := by omega
          rw [he]
          exact hall (k + 1) (by omega))
      generalize hg : f2 + 1 = g at hrec
      rw [hrec]
      have hidx : i + 1 + g - 1 = i + (g + 1) - 1 := by omega
      rw [hidx]
      conv_rhs => rw [failTrace]
      simp [attemptSleep, h0]

/-- C3 amended: a 403 response does trigger a fixed 60-unit cooldown and a
retry of the same call (skipping the failure print and the 2-unit delay),
but it consumes a loop iteration of the same retry budget like any other
failure; `retries` consecutive 403 responses exhaust the budget and the
last 403 response itself is returned to the caller. -/
theorem rate_limit_retry_amended (m : Method) (resp : Nat → Attempt) (retries : Nat)
    (hm : supportedMethod m = true) (hr : 1 ≤ retries)
    (hall : ∀ k, k < retries → (resp k).status = 403) :
    make_request_with_retries m resp retries =
      (.ok (resp (retries - 1)), failTrace resp 0 retries) ∧
    (∀ k, k < retries → attemptSleep (resp k).status = 60) := by
  constructor
  · have := retryLoop_all403 m resp hm retries 0 none hr (by simpa using hall)
    simpa [make_request_with_retries] using this
  · intro k hk
    rw [hall k hk]
    rfl

/-- C3 counterexample: against a transport that answers 403 three times and
would answer 200 from the fourth call on, the executor makes exactly the
three budgeted calls (each followed only by the 60-unit cooldown) and then
returns the 403 response — the rate-limit path does consume the retry
budget, so 403s alone exhaust it and the call never reaches the 200. -/
theorem rate_limit_consumes_budget_cex :
    make_request_with_retries .GET respC3 3 =
      (.ok ⟨403, "rate limited"⟩,
       [.call 0 403, .sleep 60, .call 1 403, .sleep 60, .call 2 403, .sleep 60]) ∧
    (respC3 3).status = 200 :=
  ⟨rfl, rfl⟩

theorem retryLoop_first_success (m : Method) (resp : Nat → Attempt)
    (hm : supportedMethod m = true) :
    ∀ (k fuel i : Nat) (last : Option Attempt), k < fuel →
      isSuccess (resp (i + k)) = true →
      (∀ j, j < k → isSuccess (resp (i + j)) = false) →
      retryLoop m resp i fuel last =
        (.ok (resp (i + k)), failTrace resp i k ++ [.call (i + k) (resp (i + k)).status]) := by
  intro k
  induction k with
  | zero =>
    intro fuel i last hk hs _
    cases fuel with
    | zero => omega
    | succ f =>
      simp only [Nat.add_zero] at hs
      simp only [retryLoop, hm, if_true, success_beq_403 _ hs]
      simp only [isSuccess, Bool.or_eq_true, beq_iff_eq] at hs
      rcases hs with h | h <;> simp [h, failTrace]
  | succ k2 ih =>
    intro fuel i last hk hs hj
    cases fuel with
    | zero => omega
    | succ f =>
      have h0 : isSuccess (resp i) = false := by simpa using hj 0 (by omega)
      have hrec := ih f (i + 1) (some (resp i)) (by omega)
        (by
          have : i + 1 + k2 = i + (k2 + 1) := by omega
          rw [this]; exact hs)
        (fun j hjj => by
          have := hj (j + 1) (by omega)
          have he : i + (j + 1) = i + 1 + j := by omega
          rw [he] at this; exact this)
      have hne : i + (k2 + 1) = i + 1 + k2 := by omega
      simp only [retryLoop, hm, if_true]
      by_cases h403 : ((resp i).status == 403) = true
      · simp only [h403, if_true, hrec]
        simp [failTrace, attemptSleep, h403, hne]
      · have hnotsucc : ((resp i).status == 200 || (resp i).status == 204) = false := by
          simpa [isSuccess] using h0
        simp only [Bool.not_eq_true] at h403
        simp only [h403, hnotsucc, Bool.false_eq_true, if_false, hrec]
        simp [failTrace, attemptSleep, h403, hne, RETRY_DELAY]

theorem retryLoop_all_fail (m : Method) (resp : Nat → Attempt)
    (hm : supportedMethod m = true) :
    ∀ (fuel i : Nat) (last : Option Attempt), 1 ≤ fuel →
      (∀ j, j < fuel → isSuccess (resp (i + j)) = false) →
      retryLoop m resp i fuel last =
        (.ok (resp (i + fuel - 1)), failTrace resp i fuel) := by
  intro fuel
  induction fuel with
  | zero => intro i last h; omega
  | succ f ih =>
    intro i last _ hall
    have h0 : isSuccess (resp i) = false := by simpa using hall 0 (by omega)
    have hnotsucc : ((resp i).status == 200 || (resp i).status == 204) = false := by
      simpa [isSuccess] using h0
    cases f with
    | zero =>
      simp only [retryLoop, hm, if_true]
      by_cases h403 : ((resp i).status == 403) = true
      · simp only [h403, if_true, retryLoop]
        simp [failTrace, attemptSleep, h403]
      · simp only [Bool.not_eq_true] at h403
        simp only [h403, hnotsucc, Bool.false_eq_true, if_false, retryLoop]
        simp [failTrace, attemptSleep, h403]
    | succ f2 =>
      have hrec := ih (i + 1) (some (resp i)) (by omega)
        (fun j hjj => by
          have he : i + 1 + j = i + (j + 1) := by omega
          rw [he]
          exact hall (j + 1) (by omega))
      generalize hg : f2 + 1 = g at hrec
      simp only [retryLoop, hm, if_true]
      have hidx : i + 1 + g - 1 = i + (g + 1) - 1 := by omega
      by_cases h403 : ((resp i).status == 403) = true
      · simp only [h403, if_true]
        rw [hrec, hidx]
        conv_rhs => rw [failTrace]
        simp [attemptSleep, h403]
      · simp only [Bool.not_eq_true] at h403
        simp only [h403, hnotsucc, Bool.false_eq_true, if_false]
        rw [hrec, hidx]
        conv_rhs => rw [failTrace]
        simp [attemptSleep, h403, RETRY_DELAY]

/-- C7: for any supported method, the executor returns at once with the
response of the first attempt whose status is 200 or 204 (its trace is the
earlier failures, each a single call followed by its fixed sleep — 2 units
for an ordinary failure, 60 for a rate limit — and then the successful
call); and when every budgeted attempt fails, the response of the last
attempt is returned unmodified as an ordinary value (never an exception),
after `retries` calls. -/
theorem make_request_with_retries_spec (m : Method) (resp : Nat → Attempt) (retries k : Nat)
    (hm : supportedMethod m = true) :
    (k < retries → isSuccess (resp k) = true → (∀ j, j < k → isSuccess (resp j) = false) →
      make_request_with_retries m resp retries =
        (.ok (resp k), failTrace resp 0 k ++ [.call k (resp k).status])) ∧
    (1 ≤ retries → (∀ j, j < retries → isSuccess (resp j) = false) →
      make_request_with_retries m resp retries =
        (.ok (resp (retries - 1)), failTrace resp 0 retries)) := by
  constructor
  · intro hk hs hj
    have := retryLoop_first_success m resp hm k retries 0 none hk (by simpa using hs)
      (fun j hjj => by simpa using hj j hjj)
    simpa [make_request_with_retries] using this
  · intro hr hall
    have := retryLoop_all_fail m resp hm retries 0 none hr (by simpa using hall)
    simpa [make_request_with_retries] using this

end Nuke

namespace Nuke

/-! ## C1: branch cleanup never targets a protected branch -/

theorem strAppend_cancel_left (p a b : String) (h : p ++ a = p ++ b) : a = b := by
  have hd : (p ++ a).data = (p ++ b).data := congrArg String.data h
  rw [String.data_append, String.data_append] at hd
  exact String.ext (List.append_cancel_left hd)

theorem branchDeleteUrl_inj (org repo a b : String)
    (h : branchDeleteUrl org repo a = branchDeleteUrl org repo b) : a = b := by
  unfold branchDeleteUrl at h
  exact strAppend_cancel_left _ _ _ h

theorem dbrPage_sound (delSt : String → Int) (org repo : String) (limit : Option Int) :
    ∀ (brs : List Branch) (c : Nat) (u : String),
      Ev.del u ∈ (dbrPage delSt org repo limit brs c).1 →
      ∃ b, b ∈ brs ∧ b.name ∉ EXCLUDED_BRANCHES ∧ u = branchDeleteUrl org repo b.name := by
  intro brs
  induction brs with
  | nil => intro c u h; simp [dbrPage] at h
  | cons b rest ih =>
    intro c u h
    rw [dbrPage] at h
    by_cases hex : b.name ∉ EXCLUDED_BRANCHES
    · rw [if_pos hex] at h
      by_cases h204 : (delSt b.name == 204) = true
      · rw [if_pos h204] at h
        by_cases hlim : limitHit limit (c + 1) = true
        · rw [if_pos hlim] at h
          simp only [List.mem_singleton] at h
          injection h with hu
          exact ⟨b, List.mem_cons_self b rest, hex, hu⟩
        · rw [if_neg (by simpa using hlim)] at h
          rcases List.mem_cons.mp h with h | h
          · injection h with hu
            exact ⟨b, List.mem_cons_self b rest, hex, hu⟩
          · obtain ⟨b2, hb2, hnx, hu⟩ := ih (c + 1) u h
            exact ⟨b2, List.mem_cons_of_mem _ hb2, hnx, hu⟩
      · rw [if_neg (by simpa using h204)] at h
        rcases List.mem_cons.mp h with h | h
        · injection h with hu
          exact ⟨b, List.mem_cons_self b rest, hex, hu⟩
        · obtain ⟨b2, hb2, hnx, hu⟩ := ih c u h
          exact ⟨b2, List.mem_cons_of_mem _ hb2, hnx, hu⟩
    · rw [if_neg hex] at h
      obtain ⟨b2, hb2, hnx, hu⟩ := ih c u h
      exact ⟨b2, List.mem_cons_of_mem _ hb2, hnx, hu⟩

theorem dbrPages_sound (delSt : String → Int) (org repo : String) (limit : Option Int) :
    ∀ (pages : List (Int × List Branch)) (page c : Nat) (u : String),
      Ev.del u ∈ (dbrPages delSt org repo limit pages page c).1 →
      ∃ pg, pg ∈ pages ∧ ∃ b, b ∈ pg.2 ∧ b.name ∉ EXCLUDED_BRANCHES ∧
        u = branchDeleteUrl org repo b.name := by
  intro pages
  induction pages with
  | nil => intro page c u h; simp [dbrPages] at h
  | cons p rest ih =>
    intro page c u h
    rcases p with ⟨st, brs⟩
    rw [dbrPages] at h
    by_cases h200 : (st != 200) = true
    · rw [if_pos h200] at h
      simp at h
    · rw [if_neg (by simpa using h200)] at h
      by_cases hemp : brs.isEmpty = true
      · rw [if_pos hemp] at h
        simp at h
      · rw [if_neg (by simpa using hemp)] at h
        by_cases hearly : (dbrPage delSt org repo limit brs c).2.2 = true
        · rw [if_pos hearly] at h
          rcases List.mem_cons.mp h with h | h
          · simp at h
          · obtain ⟨b2, hb2, hnx, hu⟩ := dbrPage_sound delSt org repo limit brs c u h
            exact ⟨(st, brs), List.mem_cons_self _ _, b2, hb2, hnx, hu⟩
        · rw [if_neg (by simpa using hearly)] at h
          rcases List.mem_cons.mp h with h | h
          · simp at h
          · rcases List.mem_append.mp h with h | h
            · obtain ⟨b2, hb2, hnx, hu⟩ := dbrPage_sound delSt org repo limit brs c u h
              exact ⟨(st, brs), List.mem_cons_self _ _, b2, hb2, hnx, hu⟩
            · obtain ⟨pg, hpg, b2, hb2, hnx, hu⟩ := ih (page + 1) _ u h
              exact ⟨pg, List.mem_cons_of_mem _ hpg, b2, hb2, hnx, hu⟩

/-- C1: every DELETE request issued by `delete_branches` targets a listed
branch whose name is outside the protected set `EXCLUDED_BRANCHES`, and in
particular no DELETE request for a branch named "main" or "master" is ever
issued, for every world of listed pages and every caller-supplied limit. -/
theorem delete_branches_never_deletes_protected (w : BranchWorld) (org repo : String)
    (limit : Option Int) :
    (∀ u, Ev.del u ∈ (delete_branches w org repo limit).1 →
       ∃ pg, pg ∈ w.pages ∧ ∃ b, b ∈ pg.2 ∧ b.name ∉ EXCLUDED_BRANCHES ∧
         u = branchDeleteUrl org repo b.name) ∧
    (∀ name, name ∈ EXCLUDED_BRANCHES →
       Ev.del (branchDeleteUrl org repo name) ∉ (delete_branches w org repo limit).1) := by
  constructor
  · intro u hu
    exact dbrPages_sound w.deleteStatus org repo limit w.pages 1 0 u hu
  · intro name hname hmem
    obtain ⟨pg, _, b, _, hnx, hu⟩ := dbrPages_sound w.deleteStatus org repo limit w.pages 1 0 _ hmem
    have hb : name = b.name := branchDeleteUrl_inj org repo name b.name hu
    rw [hb] at hname
    exact hnx hname

/-- Witness for C1 at a concrete world whose listing contains "main", a
deletable branch and "master": no DELETE for either protected branch occurs
in the trace. -/
theorem delete_branches_never_deletes_protected_witness :
    ("main" ∈ EXCLUDED_BRANCHES ∧
      Ev.del (branchDeleteUrl "octo" "nuke" "main") ∉
        (delete_branches wBranchesC1 "octo" "nuke" none).1) ∧
    ("master" ∈ EXCLUDED_BRANCHES ∧
      Ev.del (branchDeleteUrl "octo" "nuke" "master") ∉
        (delete_branches wBranchesC1 "octo" "nuke" none).1) :=
  ⟨⟨by decide,
    (delete_branches_never_deletes_protected wBranchesC1 "octo" "nuke" none).2 "main" (by decide)⟩,
   ⟨by decide,
    (delete_branches_never_deletes_protected wBranchesC1 "octo" "nuke" none).2 "master" (by decide)⟩⟩

end Nuke

namespace Nuke

/-! ## C4: when pagination stops, per operation -/

theorem countGets_append (a b : List Ev) : countGets (a ++ b) = countGets a + countGets b := by
  induction a with
  | nil => simp [countGets]
  | cons e rest ih => simp [countGets, ih, Nat.add_assoc]

theorem dtagPage_no_get (delSt : String → Int) (org repo : String) (limit : Option Int) :
    ∀ (tags : List Tag) (c : Nat), countGets (dtagPage delSt org repo limit tags c).1 = 0 := by
  intro tags
  induction tags with
  | nil => intro c; rfl
  | cons t rest ih =>
    intro c
    rw [dtagPage]
    by_cases h204 : (delSt t.ref == 204) = true
    · rw [if_pos h204]
      by_cases hlim : limitHit limit (c + 1) = true
      · rw [if_pos hlim]; rfl
      · rw [if_neg (by simpa using hlim)]
        simp [countGets, isGet, ih]
    · rw [if_neg (by simpa using h204)]
      simp [countGets, isGet, ih]

theorem dtagPage_none_early (delSt : String → Int) (org repo : String) :
    ∀ (tags : List Tag) (c : Nat), (dtagPage delSt org repo none tags c).2.2 = false := by
  intro tags
  induction tags with
  | nil => intro c; rfl
  | cons t rest ih =>
    intro c
    rw [dtagPage]
    by_cases h204 : (delSt t.ref == 204) = true
    · rw [if_pos h204, if_neg (by simp [limitHit])]
      simpa using ih (c + 1)
    · rw [if_neg (by simpa using h204)]
      simpa using ih c

theorem dbrPage_no_get (delSt : String → Int) (org repo : String) (limit : Option Int) :
    ∀ (brs : List Branch) (c : Nat), countGets (dbrPage delSt org repo limit brs c).1 = 0 := by
  intro brs
  induction brs with
  | nil => intro c; rfl
  | cons b rest ih =>
    intro c
    rw [dbrPage]
    by_cases hex : b.name ∉ EXCLUDED_BRANCHES
    · rw [if_pos hex]
      by_cases h204 : (delSt b.name == 204) = true
      · rw [if_pos h204]
        by_cases hlim : limitHit limit (c + 1) = true
        · rw [if_pos hlim]; rfl
        · rw [if_neg (by simpa using hlim)]
          simp [countGets, isGet, ih]
      · rw [if_neg (by simpa using h204)]
        simp [countGets, isGet, ih]
    · rw [if_neg hex]
      exact ih c

theorem dbrPage_none_early (delSt : String → Int) (org repo : String) :
    ∀ (brs : List Branch) (c : Nat), (dbrPage delSt org repo none brs c).2.2 = false := by
  intro brs
  induction brs with
  | nil => intro c; rfl
  | cons b rest ih =>
    intro c
    rw [dbrPage]
    by_cases hex : b.name ∉ EXCLUDED_BRANCHES
    · rw [if_pos hex]
      by_cases h204 : (delSt b.name == 204) = true
      · rw [if_pos h204, if_neg (by simp [limitHit])]
        simpa using ih (c + 1)
      · rw [if_neg (by simpa using h204)]
        simpa using ih c
    · rw [if_neg hex]
      exact ih c

theorem ciPage_no_get (pSt : Int → Int) (org repo : String) (limit : Option Int) :
    ∀ (issues : List Issue) (c : Nat), countGets (ciPage pSt org repo limit issues c).1 = 0 := by
  intro issues
  induction issues with
  | nil => intro c; rfl
  | cons i rest ih =>
    intro c
    rw [ciPage]
    by_cases h200 : (pSt i.number == 200) = true
    · rw [if_pos h200]
      by_cases hlim : limitHit limit (c + 1) = true
      · rw [if_pos hlim]; rfl
      · rw [if_neg (by simpa using hlim)]
        simp [countGets, isGet, ih]
    · rw [if_neg (by simpa using h200)]
      simp [countGets, isGet, ih]

theorem ciPage_none_early (pSt : Int → Int) (org repo : String) :
    ∀ (issues : List Issue) (c : Nat), (ciPage pSt org repo none issues c).2.2 = false := by
  intro issues
  induction issues with
  | nil => intro c; rfl
  | cons i rest ih =>
    intro c
    rw [ciPage]
    by_cases h200 : (pSt i.number == 200) = true
    · rw [if_pos h200, if_neg (by simp [limitHit])]
      simpa using ih (c + 1)
    · rw [if_neg (by simpa using h200)]
      simpa using ih c

theorem dtagPages_gets (delSt : String → Int) (org repo : String) :
    ∀ (pages : List (Int × List Tag)) (page c : Nat), (∀ p, p ∈ pages → p.1 = 200) →
      countGets (dtagPages delSt org repo none pages page c).1 =
        specCallsEmptyStop (pages.map (fun p => p.2.length)) := by
  intro pages
  induction pages with
  | nil => intro page c _; rfl
  | cons p rest ih =>
    intro page c hall
    rcases p with ⟨st, tags⟩
    have h200 : st = 200 := hall (st, tags) (List.mem_cons_self _ _)
    rw [dtagPages, if_neg (by simp [h200])]
    by_cases hemp : tags.isEmpty = true
    · rw [if_pos hemp]
      have : tags.length = 0 := by simpa [List.isEmpty_iff_length_eq_zero] using hemp
      simp [countGets, isGet, specCallsEmptyStop, this]
    · rw [if_neg (by simpa using hemp)]
      rw [if_neg (by simp [dtagPage_none_early])]
      have hlen : tags.length ≠ 0 := by
        simpa [List.isEmpty_iff_length_eq_zero] using hemp
      have ihx := ih (page + 1) (dtagPage delSt org repo none tags c).2.1
        (fun q hq => hall q (List.mem_cons_of_mem _ hq))
      simp [countGets, isGet, countGets_append, dtagPage_no_get, ihx, specCallsEmptyStop, hlen]

theorem dbrPages_gets (delSt : String → Int) (org repo : String) :
    ∀ (pages : List (Int × List Branch)) (page c : Nat), (∀ p, p ∈ pages → p.1 = 200) →
      countGets (dbrPages delSt org repo none pages page c).1 =
        specCallsEmptyStop (pages.map (fun p => p.2.length)) := by
  intro pages
  induction pages with
  | nil => intro page c _; rfl
  | cons p rest ih =>
    intro page c hall
    rcases p with ⟨st, brs⟩
    have h200 : st = 200 := hall (st, brs) (List.mem_cons_self _ _)
    rw [dbrPages, if_neg (by simp [h200])]
    by_cases hemp : brs.isEmpty = true
    · rw [if_pos hemp]
      have : brs.length = 0 := by simpa [List.isEmpty_iff_length_eq_zero] using hemp
      simp [countGets, isGet, specCallsEmptyStop, this]
    · rw [if_neg (by simpa using hemp)]
      rw [if_neg (by simp [dbrPage_none_early])]
      have hlen : brs.length ≠ 0 := by
        simpa [List.isEmpty_iff_length_eq_zero] using hemp
      have ihx := ih (page + 1) (dbrPage delSt org repo none brs c).2.1
        (fun q hq => hall q (List.mem_cons_of_mem _ hq))
      simp [countGets, isGet, countGets_append, dbrPage_no_get, ihx, specCallsEmptyStop, hlen]

theorem ciPages_gets (pSt : Int → Int) (org repo : String) :
    ∀ (pages : List (Int × List Issue)) (c : Nat), (∀ p, p ∈ pages → p.1 = 200) →
      countGets (ciPages pSt org repo none pages c).1 =
        specCallsEmptyStop (pages.map (fun p => p.2.length)) := by
  intro pages
  induction pages with
  | nil => intro c _; rfl
  | cons p rest ih =>
    intro c hall
    rcases p with ⟨st, issues⟩
    have h200 : st = 200 := hall (st, issues) (List.mem_cons_self _ _)
    rw [ciPages, if_neg (by simp [h200])]
    by_cases hemp : issues.isEmpty = true
    · rw [if_pos hemp]
      have : issues.length = 0 := by simpa [List.isEmpty_iff_length_eq_zero] using hemp
      simp [countGets, isGet, specCallsEmptyStop, this]
    · rw [if_neg (by simpa using hemp)]
      rw [if_neg (by simp [ciPage_none_early])]
      have hlen : issues.length ≠ 0 := by
        simpa [List.isEmpty_iff_length_eq_zero] using hemp
      have ihx := ih (ciPage pSt org repo none issues c).2.1
        (fun q hq => hall q (List.mem_cons_of_mem _ hq))
      simp [countGets, isGet, countGets_append, ciPage_no_get, ihx, specCallsEmptyStop, hlen]

end Nuke

namespace Nuke

/-! ## Release-page lemmas -/

theorem delsOf_append (a b : List Ev) : delsOf (a ++ b) = delsOf a ++ delsOf b := by
  induction a with
  | nil => simp [delsOf]
  | cons e rest ih =>
    by_cases h : isDel e = true <;> simp [delsOf, h, ih]

theorem drPage_no_get (delSt : Int → Int) (org repo : String) (cutoff : DateTime)
    (limit : Option Int) :
    ∀ (rels : List Release) (c : Nat) (evs : List Ev) (c2 : Nat) (early : Bool),
      drPage delSt org repo cutoff limit rels c = .ok (evs, c2, early) →
      countGets evs = 0 := by
  intro rels
  induction rels with
  | nil =>
    intro c evs c2 early hok
    simp only [drPage, Except.ok.injEq, Prod.mk.injEq] at hok
    rw [← hok.1]
    rfl
  | cons r rest ih =>
    intro c evs c2 early hok
    rw [drPage] at hok
    cases hp : parseDT r.created_at with
    | none => simp [hp] at hok
    | some d =>
      simp only [hp] at hok
      by_cases hlt : dtLt d cutoff = true
      · rw [if_pos hlt] at hok
        by_cases h204 : (delSt r.id == 204) = true
        · rw [if_pos h204] at hok
          by_cases hlim : limitHit limit (c + 1) = true
          · rw [if_pos hlim] at hok
            simp only [Except.ok.injEq, Prod.mk.injEq] at hok
            rw [← hok.1]
            rfl
          · rw [if_neg (by simpa using hlim)] at hok
            cases hrec : drPage delSt org repo cutoff limit rest (c + 1) with
            | error e => simp [hrec] at hok
            | ok trip =>
              rcases trip with ⟨evs2, c3, early2⟩
              simp only [hrec, Except.ok.injEq, Prod.mk.injEq] at hok
              rw [← hok.1]
              simpa [countGets, isGet] using ih (c + 1) evs2 c3 early2 hrec
        · rw [if_neg (by simpa using h204)] at hok
          cases hrec : drPage delSt org repo cutoff limit rest c with
          | error e => simp [hrec] at hok
          | ok trip =>
            rcases trip with ⟨evs2, c3, early2⟩
            simp only [hrec, Except.ok.injEq, Prod.mk.injEq] at hok
            rw [← hok.1]
            simpa [countGets, isGet] using ih c evs2 c3 early2 hrec
      · rw [if_neg (by simpa using hlt)] at hok
        exact ih c evs c2 early hok

theorem drPage_none_early (delSt : Int → Int) (org repo : String) (cutoff : DateTime) :
    ∀ (rels : List Release) (c : Nat) (evs : List Ev) (c2 : Nat) (early : Bool),
      drPage delSt org repo cutoff none rels c = .ok (evs, c2, early) →
      early = false := by
  intro rels
  induction rels with
  | nil =>
    intro c evs c2 early hok
    simp only [drPage, Except.ok.injEq, Prod.mk.injEq] at hok
    exact hok.2.2.symm
  | cons r rest ih =>
    intro c evs c2 early hok
    rw [drPage] at hok
    cases hp : parseDT r.created_at with
    | none => simp [hp] at hok
    | some d =>
      simp only [hp] at hok
      by_cases hlt : dtLt d cutoff = true
      · rw [if_pos hlt] at hok
        by_cases h204 : (delSt r.id == 204) = true
        · rw [if_pos h204, if_neg (by simp [limitHit])] at hok
          cases hrec : drPage delSt org repo cutoff none rest (c + 1) with
          | error e => simp [hrec] at hok
          | ok trip =>
            rcases trip with ⟨evs2, c3, early2⟩
            simp only [hrec, Except.ok.injEq, Prod.mk.injEq] at hok
            rw [← hok.2.2]
            exact ih (c + 1) evs2 c3 early2 hrec
        · rw [if_neg (by simpa using h204)] at hok
          cases hrec : drPage delSt org repo cutoff none rest c with
          | error e => simp [hrec] at hok
          | ok trip =>
            rcases trip with ⟨evs2, c3, early2⟩
            simp only [hrec, Except.ok.injEq, Prod.mk.injEq] at hok
            rw [← hok.2.2]
            exact ih c evs2 c3 early2 hrec
      · rw [if_neg (by simpa using hlt)] at hok
        exact ih c evs c2 early hok

theorem drPage_no_early_char (delSt : Int → Int) (org repo : String) (cutoff : DateTime)
    (limit : Option Int) :
    ∀ (rels : List Release) (c : Nat) (evs : List Ev) (c2 : Nat),
      drPage delSt org repo cutoff limit rels c = .ok (evs, c2, false) →
      evs = (oldCandidates cutoff rels).map (fun r => Ev.del (releaseDeleteUrl org repo r.id)) ∧
      c2 = c + succCount delSt cutoff rels := by
  intro rels
  induction rels with
  | nil =>
    intro c evs c2 hok
    simp only [drPage, Except.ok.injEq, Prod.mk.injEq] at hok
    exact ⟨hok.1.symm, by simp [← hok.2.1, succCount, oldCandidates]⟩
  | cons r rest ih =>
    intro c evs c2 hok
    rw [drPage] at hok
    cases hp : parseDT r.created_at with
    | none => simp [hp] at hok
    | some d =>
      simp only [hp] at hok
      by_cases hlt : dtLt d cutoff = true
      · have hold : isOld cutoff r = true := by simp [isOld, hp, hlt]
        rw [if_pos hlt] at hok
        by_cases h204 : (delSt r.id == 204) = true
        · rw [if_pos h204] at hok
          by_cases hlim : limitHit limit (c + 1) = true
          · rw [if_pos hlim] at hok
            simp at hok
          · rw [if_neg (by simpa using hlim)] at hok
            cases hrec : drPage delSt org repo cutoff limit rest (c + 1) with
            | error e => simp [hrec] at hok
            | ok trip =>
              rcases trip with ⟨evs2, c3, early2⟩
              simp only [hrec, Except.ok.injEq, Prod.mk.injEq] at hok
              obtain ⟨hevs, hc, hearly⟩ := hok
              obtain ⟨hev2, hc2⟩ := ih (c + 1) evs2 c3 (by rw [hearly] at hrec; exact hrec)
              constructor
              · rw [← hevs, hev2]
                simp [oldCandidates, hold]
              · rw [← hc, hc2]
                simp [succCount, oldCandidates, hold, List.filter_cons, h204]
                omega
        · rw [if_neg (by simpa using h204)] at hok
          cases hrec : drPage delSt org repo cutoff limit rest c with
          | error e => simp [hrec] at hok
          | ok trip =>
            rcases trip with ⟨evs2, c3, early2⟩
            simp only [hrec, Except.ok.injEq, Prod.mk.injEq] at hok
            obtain ⟨hevs, hc, hearly⟩ := hok
            obtain ⟨hev2, hc2⟩ := ih c evs2 c3 (by rw [hearly] at hrec; exact hrec)
            constructor
            · rw [← hevs, hev2]
              simp [oldCandidates, hold]
            · rw [← hc, hc2]
              simp [succCount, oldCandidates, hold, List.filter_cons, h204]
      · have hold : isOld cutoff r = false := by simp [isOld, hp, hlt]
        rw [if_neg (by simpa using hlt)] at hok
        obtain ⟨hev2, hc2⟩ := ih c evs c2 hok
        constructor
        · rw [hev2]
          simp [oldCandidates, hold]
        · rw [hc2]
          simp [succCount, oldCandidates, hold]

end Nuke

namespace Nuke

theorem drPage_sound (delSt : Int → Int) (org repo : String) (cutoff : DateTime)
    (limit : Option Int) :
    ∀ (rels : List Release) (c : Nat) (evs : List Ev) (c2 : Nat) (early : Bool),
      drPage delSt org repo cutoff limit rels c = .ok (evs, c2, early) →
      ∀ u, Ev.del u ∈ evs →
        ∃ r, r ∈ rels ∧ isOld cutoff r = true ∧ u = releaseDeleteUrl org repo r.id := by
  intro rels
  induction rels with
  | nil =>
    intro c evs c2 early hok u hu
    simp only [drPage, Except.ok.injEq, Prod.mk.injEq] at hok
    rw [← hok.1] at hu
    simp at hu
  | cons r rest ih =>
    intro c evs c2 early hok u hu
    rw [drPage] at hok
    cases hp : parseDT r.created_at with
    | none => simp [hp] at hok
    | some d =>
      simp only [hp] at hok
      by_cases hlt : dtLt d cutoff = true
      · have hold : isOld cutoff r = true := by simp [isOld, hp, hlt]
        rw [if_pos hlt] at hok
        by_cases h204 : (delSt r.id == 204) = true
        · rw [if_pos h204] at hok
          by_cases hlim : limitHit limit (c + 1) = true
          · rw [if_pos hlim] at hok
            simp only [Except.ok.injEq, Prod.mk.injEq] at hok
            rw [← hok.1] at hu
            simp only [List.mem_singleton] at hu
            injection hu with huu
            exact ⟨r, List.mem_cons_self r rest, hold, huu⟩
          · rw [if_neg (by simpa using hlim)] at hok
            cases hrec : drPage delSt org repo cutoff limit rest (c + 1) with
            | error e => simp [hrec] at hok
            | ok trip =>
              rcases trip with ⟨evs2, c3, early2⟩
              simp only [hrec, Except.ok.injEq, Prod.mk.injEq] at hok
              rw [← hok.1] at hu
              rcases List.mem_cons.mp hu with hu | hu
              · injection hu with huu
                exact ⟨r, List.mem_cons_self r rest, hold, huu⟩
              · obtain ⟨r2, hr2, ho2, hu2⟩ := ih (c + 1) evs2 c3 early2 hrec u hu
                exact ⟨r2, List.mem_cons_of_mem _ hr2, ho2, hu2⟩
        · rw [if_neg (by simpa using h204)] at hok
          cases hrec : drPage delSt org repo cutoff limit rest c with
          | error e => simp [hrec] at hok
          | ok trip =>
            rcases trip with ⟨evs2, c3, early2⟩
            simp only [hrec, Except.ok.injEq, Prod.mk.injEq] at hok
            rw [← hok.1] at hu
            rcases List.mem_cons.mp hu with hu | hu
            · injection hu with huu
              exact ⟨r, List.mem_cons_self r rest, hold, huu⟩
            · obtain ⟨r2, hr2, ho2, hu2⟩ := ih c evs2 c3 early2 hrec u hu
              exact ⟨r2, List.mem_cons_of_mem _ hr2, ho2, hu2⟩
      · rw [if_neg (by simpa using hlt)] at hok
        obtain ⟨r2, hr2, ho2, hu2⟩ := ih c evs c2 early hok u hu
        exact ⟨r2, List.mem_cons_of_mem _ hr2, ho2, hu2⟩

theorem limitHit_some_iff (l : Int) (c : Nat) :
    limitHit (some l) c = true ↔ l ≠ 0 ∧ l ≤ (c : Int) := by
  simp [limitHit]

theorem drPage_bound (delSt : Int → Int) (org repo : String) (cutoff : DateTime) (l : Int)
    (hl : 0 < l) :
    ∀ (rels : List Release) (c : Nat) (evs : List Ev) (c2 : Nat) (early : Bool),
      (c : Int) < l →
      drPage delSt org repo cutoff (some l) rels c = .ok (evs, c2, early) →
      c ≤ c2 ∧ (c2 : Int) ≤ l ∧ (early = true ↔ (c2 : Int) = l) := by
  intro rels
  induction rels with
  | nil =>
    intro c evs c2 early hc hok
    simp only [drPage, Except.ok.injEq, Prod.mk.injEq] at hok
    obtain ⟨_, hcc, he⟩ := hok
    rw [← hcc, ← he]
    refine ⟨Nat.le_refl c, by omega, by simp; omega⟩
  | cons r rest ih =>
    intro c evs c2 early hc hok
    rw [drPage] at hok
    cases hp : parseDT r.created_at with
    | none => simp [hp] at hok
    | some d =>
      simp only [hp] at hok
      by_cases hlt : dtLt d cutoff = true
      · rw [if_pos hlt] at hok
        by_cases h204 : (delSt r.id == 204) = true
        · rw [if_pos h204] at hok
          by_cases hlim : limitHit (some l) (c + 1) = true
          · rw [if_pos hlim] at hok
            rw [limitHit_some_iff] at hlim
            simp only [Except.ok.injEq, Prod.mk.injEq] at hok
            obtain ⟨_, hcc, he⟩ := hok
            rw [← hcc, ← he]
            refine ⟨by omega, by push_cast; omega, by simp; push_cast at hlim; omega⟩
          · rw [if_neg (by simpa using hlim)] at hok
            rw [limitHit_some_iff] at hlim
            have hc1 : ((c + 1 : Nat) : Int) < l := by push_cast; push_cast at hlim; omega
            cases hrec : drPage delSt org repo cutoff (some l) rest (c + 1) with
            | error e => simp [hrec] at hok
            | ok trip =>
              rcases trip with ⟨evs2, c3, early2⟩
              simp only [hrec, Except.ok.injEq, Prod.mk.injEq] at hok
              obtain ⟨_, hcc, he⟩ := hok
              obtain ⟨ha, hb, hiff⟩ := ih (c + 1) evs2 c3 early2 hc1 hrec
              rw [← hcc, ← he]
              exact ⟨by omega, hb, hiff⟩
        · rw [if_neg (by simpa using h204)] at hok
          cases hrec : drPage delSt org repo cutoff (some l) rest c with
          | error e => simp [hrec] at hok
          | ok trip =>
            rcases trip with ⟨evs2, c3, early2⟩
            simp only [hrec, Except.ok.injEq, Prod.mk.injEq] at hok
            obtain ⟨_, hcc, he⟩ := hok
            obtain ⟨ha, hb, hiff⟩ := ih c evs2 c3 early2 hc hrec
            rw [← hcc, ← he]
            exact ⟨ha, hb, hiff⟩
      · rw [if_neg (by simpa using hlt)] at hok
        exact ih c evs c2 early hc hok

theorem drPage_early_last (delSt : Int → Int) (org repo : String) (cutoff : DateTime)
    (limit : Option Int) :
    ∀ (rels : List Release) (c : Nat) (evs : List Ev) (c2 : Nat),
      drPage delSt org repo cutoff limit rels c = .ok (evs, c2, true) →
      ∃ id, evs.getLast? = some (Ev.del (releaseDeleteUrl org repo id)) ∧ delSt id = 204 := by
  intro rels
  induction rels with
  | nil =>
    intro c evs c2 hok
    simp only [drPage, Except.ok.injEq, Prod.mk.injEq] at hok
    exact absurd hok.2.2 (by simp)
  | cons r rest ih =>
    intro c evs c2 hok
    rw [drPage] at hok
    cases hp : parseDT r.created_at with
    | none => simp [hp] at hok
    | some d =>
      simp only [hp] at hok
      by_cases hlt : dtLt d cutoff = true
      · rw [if_pos hlt] at hok
        by_cases h204 : (delSt r.id == 204) = true
        · rw [if_pos h204] at hok
          by_cases hlim : limitHit limit (c + 1) = true
          · rw [if_pos hlim] at hok
            simp only [Except.ok.injEq, Prod.mk.injEq] at hok
            refine ⟨r.id, ?_, by simpa using h204⟩
            rw [← hok.1]
            rfl
          · rw [if_neg (by simpa using hlim)] at hok
            cases hrec : drPage delSt org repo cutoff limit rest (c + 1) with
            | error e => simp [hrec] at hok
            | ok trip =>
              rcases trip with ⟨evs2, c3, early2⟩
              simp only [hrec, Except.ok.injEq, Prod.mk.injEq] at hok
              obtain ⟨hevs, _, he2⟩ := hok
              obtain ⟨id, hlast, hst⟩ := ih (c + 1) evs2 c3 (by rw [he2] at hrec; exact hrec)
              refine ⟨id, ?_, hst⟩
              rw [← hevs]
              cases evs2 with
              | nil => simp at hlast
              | cons x xs => rw [List.getLast?_cons_cons]; exact hlast
        · rw [if_neg (by simpa using h204)] at hok
          cases hrec : drPage delSt org repo cutoff limit rest c with
          | error e => simp [hrec] at hok
          | ok trip =>
            rcases trip with ⟨evs2, c3, early2⟩
            simp only [hrec, Except.ok.injEq, Prod.mk.injEq] at hok
            obtain ⟨hevs, _, he2⟩ := hok
            obtain ⟨id, hlast, hst⟩ := ih c evs2 c3 (by rw [he2] at hrec; exact hrec)
            refine ⟨id, ?_, hst⟩
            rw [← hevs]
            cases evs2 with
            | nil => simp at hlast
            | cons x xs => rw [List.getLast?_cons_cons]; exact hlast
      · rw [if_neg (by simpa using hlt)] at hok
        exact ih c evs c2 hok

end Nuke

namespace Nuke

/-! ## Release pages-level lemmas -/

theorem delsOf_map_del (f : Release → String) (l : List Release) :
    delsOf (l.map (fun r => Ev.del (f r))) = l.map (fun r => Ev.del (f r)) := by
  induction l with
  | nil => rfl
  | cons r rest ih => simp [delsOf, isDel, ih]

theorem oldCandidates_append (cutoff : DateTime) (a b : List Release) :
    oldCandidates cutoff (a ++ b) = oldCandidates cutoff a ++ oldCandidates cutoff b := by
  simp [oldCandidates, List.filter_append]

theorem succCount_append (delSt : Int → Int) (cutoff : DateTime) (a b : List Release) :
    succCount delSt cutoff (a ++ b) =
      succCount delSt cutoff a + succCount delSt cutoff b := by
  simp [succCount, oldCandidates, List.filter_append]

theorem drPages_gets (delSt : Int → Int) (org repo : String) (cutoff : DateTime) :
    ∀ (pages : List (Int × List Release)) (page c : Nat) (evs : List Ev) (c2 : Nat),
      (∀ p, p ∈ pages → p.1 = 200) →
      drPages delSt org repo cutoff none pages page c = .ok (evs, c2) →
      countGets evs = specCallsShortStop (pages.map (fun p => p.2.length)) := by
  intro pages
  induction pages with
  | nil =>
    intro page c evs c2 _ hok
    simp only [drPages, Except.ok.injEq, Prod.mk.injEq] at hok
    rw [← hok.1]
    rfl
  | cons p rest ih =>
    intro page c evs c2 hall hok
    rcases p with ⟨st, rels⟩
    have h200 : st = 200 := hall (st, rels) (List.mem_cons_self _ _)
    rw [drPages, if_neg (by simp [h200])] at hok
    by_cases hemp : rels.isEmpty = true
    · rw [if_pos hemp] at hok
      simp only [Except.ok.injEq, Prod.mk.injEq] at hok
      rw [← hok.1]
      have hlen : rels.length = 0 := by simpa [List.isEmpty_iff_length_eq_zero] using hemp
      simp [countGets, isGet, specCallsShortStop, hlen]
    · rw [if_neg (by simpa using hemp)] at hok
      cases hpage : drPage delSt org repo cutoff none rels c with
      | error e => simp [hpage] at hok
      | ok trip =>
        rcases trip with ⟨pevs, pc, early⟩
        have hearly : early = false :=
          drPage_none_early delSt org repo cutoff rels c pevs pc early hpage
        simp only [hpage, hearly, Bool.false_eq_true, if_false] at hok
        by_cases hshort : rels.length < 50
        · rw [if_pos hshort] at hok
          simp only [Except.ok.injEq, Prod.mk.injEq] at hok
          rw [← hok.1]
          have hng := drPage_no_get delSt org repo cutoff none rels c pevs pc early hpage
          simp [countGets, isGet, hng, specCallsShortStop, hshort]
        · rw [if_neg hshort] at hok
          cases hrec2 : drPages delSt org repo cutoff none rest (page + 1) pc with
          | error e => simp [hrec2] at hok
          | ok pair =>
            rcases pair with ⟨evs2, c3⟩
            simp only [hrec2, Except.ok.injEq, Prod.mk.injEq] at hok
            rw [← hok.1]
            have hng := drPage_no_get delSt org repo cutoff none rels c pevs pc early hpage
            have ihx := ih (page + 1) pc evs2 c3
              (fun q hq => hall q (List.mem_cons_of_mem _ hq)) hrec2
            simp [countGets, isGet, countGets_append, hng, ihx, specCallsShortStop, hshort]

theorem drPages_none_char (delSt : Int → Int) (org repo : String) (cutoff : DateTime) :
    ∀ (pages : List (Int × List Release)) (page c : Nat) (evs : List Ev) (c2 : Nat),
      drPages delSt org repo cutoff none pages page c = .ok (evs, c2) →
      delsOf evs = (oldCandidates cutoff (processedItems pages)).map
        (fun r => Ev.del (releaseDeleteUrl org repo r.id)) ∧
      c2 = c + succCount delSt cutoff (processedItems pages) := by
  intro pages
  induction pages with
  | nil =>
    intro page c evs c2 hok
    simp only [drPages, Except.ok.injEq, Prod.mk.injEq] at hok
    rw [← hok.1, ← hok.2]
    simp [delsOf, isDel, processedItems, oldCandidates, succCount]
  | cons p rest ih =>
    intro page c evs c2 hok
    rcases p with ⟨st, rels⟩
    rw [drPages] at hok
    by_cases h200 : (st != 200) = true
    · rw [if_pos h200] at hok
      simp only [Except.ok.injEq, Prod.mk.injEq] at hok
      rw [← hok.1, ← hok.2]
      simp [delsOf, isDel, processedItems, h200, oldCandidates, succCount]
    · rw [if_neg (by simpa using h200)] at hok
      by_cases hemp : rels.isEmpty = true
      · rw [if_pos hemp] at hok
        simp only [Except.ok.injEq, Prod.mk.injEq] at hok
        rw [← hok.1, ← hok.2]
        have hpi : processedItems ((st, rels) :: rest) = [] := by
          rw [processedItems, if_neg (by simpa using h200), if_pos hemp]
        simp [delsOf, isDel, hpi, oldCandidates, succCount]
      · rw [if_neg (by simpa using hemp)] at hok
        cases hpage : drPage delSt org repo cutoff none rels c with
        | error e => simp [hpage] at hok
        | ok trip =>
          rcases trip with ⟨pevs, pc, early⟩
          have hearly : early = false :=
            drPage_none_early delSt org repo cutoff rels c pevs pc early hpage
          rw [hearly] at hpage
          obtain ⟨hchar, hcount⟩ :=
            drPage_no_early_char delSt org repo cutoff none rels c pevs pc hpage
          simp only [hpage, Bool.false_eq_true, if_false] at hok
          by_cases hshort : rels.length < 50
          · rw [if_pos hshort] at hok
            simp only [Except.ok.injEq, Prod.mk.injEq] at hok
            have hpi : processedItems ((st, rels) :: rest) = rels := by
              rw [processedItems, if_neg (by simpa using h200), if_neg (by simpa using hemp),
                if_pos hshort]
            rw [← hok.1, ← hok.2, hpi]
            constructor
            · simp only [delsOf, isDel, Bool.false_eq_true, if_false]
              rw [hchar, delsOf_map_del]
            · omega
          · rw [if_neg hshort] at hok
            cases hrec2 : drPages delSt org repo cutoff none rest (page + 1) pc with
            | error e => simp [hrec2] at hok
            | ok pair =>
              rcases pair with ⟨evs2, c3⟩
              simp only [hrec2, Except.ok.injEq, Prod.mk.injEq] at hok
              obtain ⟨ih1, ih2⟩ := ih (page + 1) pc evs2 c3 hrec2
              have hpi : processedItems ((st, rels) :: rest) = rels ++ processedItems rest := by
                rw [processedItems, if_neg (by simpa using h200), if_neg (by simpa using hemp),
                  if_neg hshort]
              rw [← hok.1, ← hok.2, hpi]
              constructor
              · simp only [delsOf, isDel, Bool.false_eq_true, if_false, List.append_eq]
                rw [delsOf_append, hchar, ih1, oldCandidates_append, List.map_append,
                  delsOf_map_del]
              · rw [succCount_append]
                omega

end Nuke

namespace Nuke

theorem drPages_sound (delSt : Int → Int) (org repo : String) (cutoff : DateTime)
    (limit : Option Int) :
    ∀ (pages : List (Int × List Release)) (page c : Nat) (evs : List Ev) (c2 : Nat),
      drPages delSt org repo cutoff limit pages page c = .ok (evs, c2) →
      ∀ u, Ev.del u ∈ evs →
        ∃ pg, pg ∈ pages ∧ ∃ r, r ∈ pg.2 ∧ isOld cutoff r = true ∧
          u = releaseDeleteUrl org repo r.id := by
  intro pages
  induction pages with
  | nil =>
    intro page c evs c2 hok u hu
    simp only [drPages, Except.ok.injEq, Prod.mk.injEq] at hok
    rw [← hok.1] at hu
    simp at hu
  | cons p rest ih =>
    intro page c evs c2 hok u hu
    rcases p with ⟨st, rels⟩
    rw [drPages] at hok
    by_cases h200 : (st != 200) = true
    · rw [if_pos h200] at hok
      simp only [Except.ok.injEq, Prod.mk.injEq] at hok
      rw [← hok.1] at hu
      simp at hu
    · rw [if_neg (by simpa using h200)] at hok
      by_cases hemp : rels.isEmpty = true
      · rw [if_pos hemp] at hok
        simp only [Except.ok.injEq, Prod.mk.injEq] at hok
        rw [← hok.1] at hu
        simp at hu
      · rw [if_neg (by simpa using hemp)] at hok
        cases hpage : drPage delSt org repo cutoff limit rels c with
        | error e => simp [hpage] at hok
        | ok trip =>
          rcases trip with ⟨pevs, pc, early⟩
          simp only [hpage] at hok
          by_cases hearly : early = true
          · rw [if_pos hearly] at hok
            simp only [Except.ok.injEq, Prod.mk.injEq] at hok
            rw [← hok.1] at hu
            rcases List.mem_cons.mp hu with hu | hu
            · simp at hu
            · obtain ⟨r2, hr2, ho2, hu2⟩ :=
                drPage_sound delSt org repo cutoff limit rels c pevs pc early hpage u hu
              exact ⟨(st, rels), List.mem_cons_self _ _, r2, hr2, ho2, hu2⟩
          · rw [if_neg hearly] at hok
            by_cases hshort : rels.length < 50
            · rw [if_pos hshort] at hok
              simp only [Except.ok.injEq, Prod.mk.injEq] at hok
              rw [← hok.1] at hu
              rcases List.mem_cons.mp hu with hu | hu
              · simp at hu
              · obtain ⟨r2, hr2, ho2, hu2⟩ :=
                  drPage_sound delSt org repo cutoff limit rels c pevs pc early hpage u hu
                exact ⟨(st, rels), List.mem_cons_self _ _, r2, hr2, ho2, hu2⟩
            · rw [if_neg hshort] at hok
              cases hrec2 : drPages delSt org repo cutoff limit rest (page + 1) pc with
              | error e => simp [hrec2] at hok
              | ok pair =>
                rcases pair with ⟨evs2, c3⟩
                simp only [hrec2, Except.ok.injEq, Prod.mk.injEq] at hok
                rw [← hok.1] at hu
                rcases List.mem_cons.mp hu with hu | hu
                · simp at hu
                · rcases List.mem_append.mp hu with hu | hu
                  · obtain ⟨r2, hr2, ho2, hu2⟩ :=
                      drPage_sound delSt org repo cutoff limit rels c pevs pc early hpage u hu
                    exact ⟨(st, rels), List.mem_cons_self _ _, r2, hr2, ho2, hu2⟩
                  · obtain ⟨pg, hpg, r2, hr2, ho2, hu2⟩ := ih (page + 1) pc evs2 c3 hrec2 u hu
                    exact ⟨pg, List.mem_cons_of_mem _ hpg, r2, hr2, ho2, hu2⟩

theorem drPages_bound (delSt : Int → Int) (org repo : String) (cutoff : DateTime) (l : Int)
    (hl : 0 < l) :
    ∀ (pages : List (Int × List Release)) (page c : Nat) (evs : List Ev) (c2 : Nat),
      (c : Int) < l →
      drPages delSt org repo cutoff (some l) pages page c = .ok (evs, c2) →
      c ≤ c2 ∧ (c2 : Int) ≤ l := by
  intro pages
  induction pages with
  | nil =>
    intro page c evs c2 hc hok
    simp only [drPages, Except.ok.injEq, Prod.mk.injEq] at hok
    rw [← hok.2]
    omega
  | cons p rest ih =>
    intro page c evs c2 hc hok
    rcases p with ⟨st, rels⟩
    rw [drPages] at hok
    by_cases h200 : (st != 200) = true
    · rw [if_pos h200] at hok
      simp only [Except.ok.injEq, Prod.mk.injEq] at hok
      rw [← hok.2]
      omega
    · rw [if_neg (by simpa using h200)] at hok
      by_cases hemp : rels.isEmpty = true
      · rw [if_pos hemp] at hok
        simp only [Except.ok.injEq, Prod.mk.injEq] at hok
        rw [← hok.2]
        omega
      · rw [if_neg (by simpa using hemp)] at hok
        cases hpage : drPage delSt org repo cutoff (some l) rels c with
        | error e => simp [hpage] at hok
        | ok trip =>
          rcases trip with ⟨pevs, pc, early⟩
          obtain ⟨hcpc, hpcl, hiff⟩ :=
            drPage_bound delSt org repo cutoff l hl rels c pevs pc early hc hpage
          simp only [hpage] at hok
          by_cases hearly : early = true
          · rw [if_pos hearly] at hok
            simp only [Except.ok.injEq, Prod.mk.injEq] at hok
            rw [← hok.2]
            omega
          · rw [if_neg hearly] at hok
            by_cases hshort : rels.length < 50
            · rw [if_pos hshort] at hok
              simp only [Except.ok.injEq, Prod.mk.injEq] at hok
              rw [← hok.2]
              omega
            · rw [if_neg hshort] at hok
              cases hrec2 : drPages delSt org repo cutoff (some l) rest (page + 1) pc with
              | error e => simp [hrec2] at hok
              | ok pair =>
                rcases pair with ⟨evs2, c3⟩
                simp only [hrec2, Except.ok.injEq, Prod.mk.injEq] at hok
                have hpcl2 : (pc : Int) < l := by
                  have : early = false := by simpa using hearly
                  rw [this] at hiff
                  simp at hiff
                  omega
                obtain ⟨ha, hb⟩ := ih (page + 1) pc evs2 c3 hpcl2 hrec2
                rw [← hok.2]
                omega

theorem drPages_last (delSt : Int → Int) (org repo : String) (cutoff : DateTime) (l : Int)
    (hl : 0 < l) :
    ∀ (pages : List (Int × List Release)) (page c : Nat) (evs : List Ev) (c2 : Nat),
      (c : Int) < l →
      drPages delSt org repo cutoff (some l) pages page c = .ok (evs, c2) →
      (c2 : Int) = l →
      ∃ id, evs.getLast? = some (Ev.del (releaseDeleteUrl org repo id)) ∧ delSt id = 204 := by
  intro pages
  induction pages with
  | nil =>
    intro page c evs c2 hc hok hc2
    simp only [drPages, Except.ok.injEq, Prod.mk.injEq] at hok
    rw [← hok.2] at hc2
    omega
  | cons p rest ih =>
    intro page c evs c2 hc hok hc2
    rcases p with ⟨st, rels⟩
    rw [drPages] at hok
    by_cases h200 : (st != 200) = true
    · rw [if_pos h200] at hok
      simp only [Except.ok.injEq, Prod.mk.injEq] at hok
      rw [← hok.2] at hc2
      omega
    · rw [if_neg (by simpa using h200)] at hok
      by_cases hemp : rels.isEmpty = true
      · rw [if_pos hemp] at hok
        simp only [Except.ok.injEq, Prod.mk.injEq] at hok
        rw [← hok.2] at hc2
        omega
      · rw [if_neg (by simpa using hemp)] at hok
        cases hpage : drPage delSt org repo cutoff (some l) rels c with
        | error e => simp [hpage] at hok
        | ok trip =>
          rcases trip with ⟨pevs, pc, early⟩
          obtain ⟨hcpc, hpcl, hiff⟩ :=
            drPage_bound delSt org repo cutoff l hl rels c pevs pc early hc hpage
          simp only [hpage] at hok
          by_cases hearly : early = true
          · rw [if_pos hearly] at hok
            simp only [Except.ok.injEq, Prod.mk.injEq] at hok
            rw [hearly] at hpage
            obtain ⟨id, hlast, hst⟩ :=
              drPage_early_last delSt org repo cutoff (some l) rels c pevs pc hpage
            refine ⟨id, ?_, hst⟩
            rw [← hok.1]
            cases pevs with
            | nil => simp at hlast
            | cons x xs => rw [List.getLast?_cons_cons]; exact hlast
          · rw [if_neg hearly] at hok
            have hearly2 : early = false := by simpa using hearly
            have hpcl2 : (pc : Int) < l := by
              rw [hearly2] at hiff
              simp at hiff
              omega
            by_cases hshort : rels.length < 50
            · rw [if_pos hshort] at hok
              simp only [Except.ok.injEq, Prod.mk.injEq] at hok
              rw [← hok.2] at hc2
              omega
            · rw [if_neg hshort] at hok
              cases hrec2 : drPages delSt org repo cutoff (some l) rest (page + 1) pc with
              | error e => simp [hrec2] at hok
              | ok pair =>
                rcases pair with ⟨evs2, c3⟩
                simp only [hrec2, Except.ok.injEq, Prod.mk.injEq] at hok
                obtain ⟨id, hlast, hst⟩ := ih (page + 1) pc evs2 c3 hpcl2 hrec2
                  (by rw [hok.2]; exact hc2)
                refine ⟨id, ?_, hst⟩
                rw [← hok.1]
                have happ : (pevs ++ evs2).getLast? = some (Ev.del (releaseDeleteUrl org repo id)) := by
                  rw [List.getLast?_append]
                  rw [hlast]
                  rfl
                show ([Ev.get (releasesUrl org repo) (pageParams page) []] ++
                  (pevs ++ evs2)).getLast? = some (Ev.del (releaseDeleteUrl org repo id))
                rw [List.getLast?_append, happ]
                rfl

theorem drPages_nohit (delSt : Int → Int) (org repo : String) (cutoff : DateTime) (l : Int)
    (hl : 0 < l) :
    ∀ (pages : List (Int × List Release)) (page c : Nat) (evs : List Ev) (c2 : Nat),
      (c : Int) < l →
      drPages delSt org repo cutoff (some l) pages page c = .ok (evs, c2) →
      (c2 : Int) < l →
      delsOf evs = (oldCandidates cutoff (processedItems pages)).map
        (fun r => Ev.del (releaseDeleteUrl org repo r.id)) ∧
      c2 = c + succCount delSt cutoff (processedItems pages) := by
  intro pages
  induction pages with
  | nil =>
    intro page c evs c2 hc hok hc2
    simp only [drPages, Except.ok.injEq, Prod.mk.injEq] at hok
    rw [← hok.1, ← hok.2]
    simp [delsOf, isDel, processedItems, oldCandidates, succCount]
  | cons p rest ih =>
    intro page c evs c2 hc hok hc2
    rcases p with ⟨st, rels⟩
    rw [drPages] at hok
    by_cases h200 : (st != 200) = true
    · rw [if_pos h200] at hok
      simp only [Except.ok.injEq, Prod.mk.injEq] at hok
      rw [← hok.1, ← hok.2]
      simp [delsOf, isDel, processedItems, h200, oldCandidates, succCount]
    · rw [if_neg (by simpa using h200)] at hok
      by_cases hemp : rels.isEmpty = true
      · rw [if_pos hemp] at hok
        simp only [Except.ok.injEq, Prod.mk.injEq] at hok
        have hpi : processedItems ((st, rels) :: rest) = [] := by
          rw [processedItems, if_neg (by simpa using h200), if_pos hemp]
        rw [← hok.1, ← hok.2, hpi]
        simp [delsOf, isDel, oldCandidates, succCount]
      · rw [if_neg (by simpa using hemp)] at hok
        cases hpage : drPage delSt org repo cutoff (some l) rels c with
        | error e => simp [hpage] at hok
        | ok trip =>
          rcases trip with ⟨pevs, pc, early⟩
          obtain ⟨hcpc, hpcl, hiff⟩ :=
            drPage_bound delSt org repo cutoff l hl rels c pevs pc early hc hpage
          simp only [hpage] at hok
          by_cases hearly : early = true
          · rw [if_pos hearly] at hok
            simp only [Except.ok.injEq, Prod.mk.injEq] at hok
            rw [hearly] at hiff
            simp at hiff
            rw [← hok.2] at hc2
            omega
          · rw [if_neg hearly] at hok
            have hearly2 : early = false := by simpa using hearly
            rw [hearly2] at hpage
            obtain ⟨hchar, hcount⟩ :=
              drPage_no_early_char delSt org repo cutoff (some l) rels c pevs pc hpage
            by_cases hshort : rels.length < 50
            · rw [if_pos hshort] at hok
              simp only [Except.ok.injEq, Prod.mk.injEq] at hok
              have hpi : processedItems ((st, rels) :: rest) = rels := by
                rw [processedItems, if_neg (by simpa using h200), if_neg (by simpa using hemp),
                  if_pos hshort]
              rw [← hok.1, ← hok.2, hpi]
              constructor
              · simp only [delsOf, isDel, Bool.false_eq_true, if_false]
                rw [hchar, delsOf_map_del]
              · omega
            · rw [if_neg hshort] at hok
              cases hrec2 : drPages delSt org repo cutoff (some l) rest (page + 1) pc with
              | error e => simp [hrec2] at hok
              | ok pair =>
                rcases pair with ⟨evs2, c3⟩
                simp only [hrec2, Except.ok.injEq, Prod.mk.injEq] at hok
                have hpcl2 : (pc : Int) < l := by
                  rw [hearly2] at hiff
                  simp at hiff
                  omega
                have hc3 : (c3 : Int) < l := by rw [hok.2]; exact hc2
                obtain ⟨ih1, ih2⟩ := ih (page + 1) pc evs2 c3 hpcl2 hrec2 hc3
                have hpi : processedItems ((st, rels) :: rest) = rels ++ processedItems rest := by
                  rw [processedItems, if_neg (by simpa using h200), if_neg (by simpa using hemp),
                    if_neg hshort]
                rw [← hok.1, ← hok.2, hpi]
                constructor
                · simp only [delsOf, isDel, Bool.false_eq_true, if_false, List.append_eq]
                  rw [delsOf_append, hchar, ih1, oldCandidates_append, List.map_append,
                    delsOf_map_del]
                · rw [succCount_append]
                  omega

end Nuke

namespace Nuke

/-! ## C4, C2, C10: the claim theorems over delete_releases and friends -/

/-- C4 counterexample: a tag-cleanup run against a single page holding one
tag (fewer than the page size of 50, and not empty).  The claimed stopping
rule predicts that listing stops at this short page, but the trace contains
two listing requests: the loop advanced past the short page and only
stopped on the following empty page. -/
theorem short_page_continues_cex :
    delete_tags wTagsC4 "octo" "nuke" none =
      ([.get (tagsUrl "octo" "nuke") [] (pageParams 1),
        .del (tagDeleteUrl "octo" "nuke" "refs/tags/v1"),
        .get (tagsUrl "octo" "nuke") [] (pageParams 2)], 1) ∧
    countGets (delete_tags wTagsC4 "octo" "nuke" none).1 = 2 ∧
    wTagsC4.pages.map (fun p => p.2.length) = [1] :=
  ⟨rfl, rfl, rfl⟩

/-- C4 amended: with all listing calls succeeding and no limit, release
cleanup issues exactly the listing calls of the rule "advance while the
returned page has at least 50 items" (a short or empty page is the last one
listed), while tag, branch and issue cleanup issue exactly the listing
calls of the rule "advance while the returned page is nonempty" — for those
three, a page with fewer than 50 items but at least one item does NOT stop
the listing. -/
theorem pagination_stop_amended (org repo : String) :
    (∀ (now : DateTime) (w : RelWorld) (s : String) (evs : List Ev) (c2 : Nat),
        (∀ p, p ∈ w.pages → p.1 = 200) →
        delete_releases now w org repo none (some s) = .ok (evs, c2) →
        countGets evs = specCallsShortStop (w.pages.map (fun p => p.2.length))) ∧
    (∀ w : TagWorld, (∀ p, p ∈ w.pages → p.1 = 200) →
        countGets (delete_tags w org repo none).1 =
          specCallsEmptyStop (w.pages.map (fun p => p.2.length))) ∧
    (∀ w : BranchWorld, (∀ p, p ∈ w.pages → p.1 = 200) →
        countGets (delete_branches w org repo none).1 =
          specCallsEmptyStop (w.pages.map (fun p => p.2.length))) ∧
    (∀ w : IssueWorld, (∀ p, p ∈ w.pages → p.1 = 200) →
        countGets (close_issues w org repo none).1 =
          specCallsEmptyStop (w.pages.map (fun p => p.2.length))) := by
  refine ⟨?_, ?_, ?_, ?_⟩
  · intro now w s evs c2 hall hok
    rw [delete_releases] at hok
    cases hcut : calculate_cutoff_date now s with
    | error e => simp [hcut] at hok
    | ok cutoff =>
      simp only [hcut] at hok
      exact drPages_gets w.deleteStatus org repo cutoff w.pages 1 0 evs c2 hall hok
  · intro w hall
    exact dtagPages_gets w.deleteStatus org repo w.pages 1 0 hall
  · intro w hall
    exact dbrPages_gets w.deleteStatus org repo w.pages 1 0 hall
  · intro w hall
    exact ciPages_gets w.patchStatus org repo w.pages 0 hall

/-- Witness for the amended C4 at concrete single-short-page worlds for the
two stopping rules. -/
theorem pagination_stop_amended_witness :
    countGets [Ev.get (releasesUrl "octo" "nuke") (pageParams 1) [],
        Ev.del (releaseDeleteUrl "octo" "nuke" 11)] =
      specCallsShortStop (wRelC4w.pages.map (fun p => p.2.length)) ∧
    countGets (delete_tags wTagsC4 "octo" "nuke" none).1 =
      specCallsEmptyStop (wTagsC4.pages.map (fun p => p.2.length)) :=
  ⟨(pagination_stop_amended "octo" "nuke").1 now0 wRelC4w "30d" _ 1 (by decide) rfl,
   (pagination_stop_amended "octo" "nuke").2.1 wTagsC4 (by decide)⟩

/-- C10: on a completed release-cleanup run (no limit), the DELETE requests
of the trace are exactly one direct transport call per strictly-older listed
release, in listing order, whatever status each DELETE receives — a 403 or
any other failure on a release delete produces no further request for it
(no retry, no cooldown), it merely fails to increment the counter, and
processing continues; the final counter counts exactly the 204 responses. -/
theorem delete_releases_direct_delete_no_retry (now : DateTime) (w : RelWorld)
    (org repo : String) (s : String) (cutoff : DateTime) (evs : List Ev) (c2 : Nat)
    (hcut : calculate_cutoff_date now s = .ok cutoff)
    (hok : delete_releases now w org repo none (some s) = .ok (evs, c2)) :
    delsOf evs = (oldCandidates cutoff (processedItems w.pages)).map
      (fun r => Ev.del (releaseDeleteUrl org repo r.id)) ∧
    c2 = ((oldCandidates cutoff (processedItems w.pages)).filter
      (fun r => w.deleteStatus r.id == 204)).length := by
  rw [delete_releases] at hok
  simp only [hcut] at hok
  obtain ⟨h1, h2⟩ := drPages_none_char w.deleteStatus org repo cutoff w.pages 1 0 evs c2 hok
  refine ⟨h1, ?_⟩
  rw [h2]
  simp [succCount]

/-- Witness for C10: a world with two old releases whose DELETEs are
answered 403 and 204: the trace holds exactly one DELETE per release (the
403 triggers no retry) and the counter counts only the 204. -/
theorem delete_releases_direct_delete_no_retry_witness :
    delsOf [Ev.get (releasesUrl "octo" "nuke") (pageParams 1) [],
        Ev.del (releaseDeleteUrl "octo" "nuke" 11),
        Ev.del (releaseDeleteUrl "octo" "nuke" 13)] =
      (oldCandidates (subDays now0 30) (processedItems wRelC10.pages)).map
        (fun r => Ev.del (releaseDeleteUrl "octo" "nuke" r.id)) ∧
    1 = ((oldCandidates (subDays now0 30) (processedItems wRelC10.pages)).filter
      (fun r => wRelC10.deleteStatus r.id == 204)).length :=
  delete_releases_direct_delete_no_retry now0 wRelC10 "octo" "nuke" "30d"
    (subDays now0 30) _ 1 rfl rfl

/-- C2: on a release-cleanup run with a positive limit `l`: every DELETE
request targets a listed release strictly older than the computed cutoff
(releases at or after the cutoff are skipped); the final count of successful
deletions never exceeds `l`; when the count reaches `l` the very last
request is the limit-reaching successful DELETE — nothing is requested after
it, even mid-page; and when the limit is never reached the DELETE requests
are exactly one per strictly-older listed release with the counter counting
the 204 responses. -/
theorem delete_releases_cutoff_and_limit (now : DateTime) (w : RelWorld) (org repo : String)
    (s : String) (cutoff : DateTime) (l : Int) (evs : List Ev) (c2 : Nat)
    (hl : 0 < l)
    (hcut : calculate_cutoff_date now s = .ok cutoff)
    (hok : delete_releases now w org repo (some l) (some s) = .ok (evs, c2)) :
    (∀ u, Ev.del u ∈ evs →
       ∃ pg, pg ∈ w.pages ∧ ∃ r, r ∈ pg.2 ∧ isOld cutoff r = true ∧
         u = releaseDeleteUrl org repo r.id) ∧
    (c2 : Int) ≤ l ∧
    ((c2 : Int) = l →
       ∃ id, evs.getLast? = some (Ev.del (releaseDeleteUrl org repo id)) ∧
         w.deleteStatus id = 204) ∧
    ((c2 : Int) < l →
       delsOf evs = (oldCandidates cutoff (processedItems w.pages)).map
         (fun r => Ev.del (releaseDeleteUrl org repo r.id)) ∧
       c2 = succCount w.deleteStatus cutoff (processedItems w.pages)) := by
  rw [delete_releases] at hok
  simp only [hcut] at hok
  have h0 : ((0 : Nat) : Int) < l := by simpa using hl
  refine ⟨?_, ?_, ?_, ?_⟩
  · intro u hu
    exact drPages_sound w.deleteStatus org repo cutoff (some l) w.pages 1 0 evs c2 hok u hu
  · exact (drPages_bound w.deleteStatus org repo cutoff l hl w.pages 1 0 evs c2 h0 hok).2
  · intro hc2
    exact drPages_last w.deleteStatus org repo cutoff l hl w.pages 1 0 evs c2 h0 hok hc2
  · intro hc2
    obtain ⟨h1, h2⟩ :=
      drPages_nohit w.deleteStatus org repo cutoff l hl w.pages 1 0 evs c2 h0 hok hc2
    exact ⟨h1, by omega⟩

/-- Witness for C2 at a concrete world with one old and one recent release,
limit 5: the count stays below the limit, and the sole DELETE targets the
old release. -/
theorem delete_releases_cutoff_and_limit_witness :
    ((1 : Nat) : Int) ≤ 5 ∧
    delsOf [Ev.get (releasesUrl "octo" "nuke") (pageParams 1) [],
        Ev.del (releaseDeleteUrl "octo" "nuke" 11)] =
      (oldCandidates (subDays now0 30) (processedItems wRelC2.pages)).map
        (fun r => Ev.del (releaseDeleteUrl "octo" "nuke" r.id)) := by
  have h := delete_releases_cutoff_and_limit now0 wRelC2 "octo" "nuke" "30d"
    (subDays now0 30) 5 [Ev.get (releasesUrl "octo" "nuke") (pageParams 1) [],
      Ev.del (releaseDeleteUrl "octo" "nuke" 11)] 1 (by decide) rfl rfl
  exact ⟨h.2.1, (h.2.2.2 (by decide)).1⟩

end Nuke

namespace Nuke

/-! ## C6: the cutoff calculator -/

/-- C6: the cutoff calculator, for every `now` and every input string: a
string consisting of a Python integer literal followed by the single suffix
character m, d or h yields `now` minus that many months (calendar-aware,
day-clamping), days, or hours respectively; a string with one of those
suffixes but a prefix that `int()` rejects fails with the int-literal
ValueError;
and a string whose final character is none of m/d/h (or an empty string)
fails with the "Invalid time frame format" ValueError. -/
theorem calculate_cutoff_date_spec (now : DateTime) (s : String) :
    (∀ (l : List Char) (n : Int), s.data = l ++ ['m'] → pyInt ⟨l⟩ = some n →
        calculate_cutoff_date now s = .ok (subMonths now n)) ∧
    (∀ (l : List Char) (n : Int), s.data = l ++ ['d'] → pyInt ⟨l⟩ = some n →
        calculate_cutoff_date now s = .ok (subDays now n)) ∧
    (∀ (l : List Char) (n : Int), s.data = l ++ ['h'] → pyInt ⟨l⟩ = some n →
        calculate_cutoff_date now s = .ok (subHours now n)) ∧
    (∀ (l : List Char) (u : Char), s.data = l ++ [u] → (u = 'm' ∨ u = 'd' ∨ u = 'h') →
        pyInt ⟨l⟩ = none →
        calculate_cutoff_date now s = .error intLiteralErrMsg) ∧
    ((∀ u, strLast s = some u → ¬(u = 'm' ∨ u = 'd' ∨ u = 'h')) →
        calculate_cutoff_date now s = .error invalidTimeFrameMsg) := by
  refine ⟨?_, ?_, ?_, ?_, ?_⟩
  · intro l n hdata hpy
    have h1 : strLast s = some 'm' := by simp [strLast, hdata]
    have h2 : strDropLast s = ⟨l⟩ := by simp [strDropLast, hdata]
    simp [calculate_cutoff_date, h1, h2, hpy]
  · intro l n hdata hpy
    have h1 : strLast s = some 'd' := by simp [strLast, hdata]
    have h2 : strDropLast s = ⟨l⟩ := by simp [strDropLast, hdata]
    simp [calculate_cutoff_date, h1, h2, hpy]
  · intro l n hdata hpy
    have h1 : strLast s = some 'h' := by simp [strLast, hdata]
    have h2 : strDropLast s = ⟨l⟩ := by simp [strDropLast, hdata]
    simp [calculate_cutoff_date, h1, h2, hpy]
  · intro l u hdata hu hpy
    have h2 : strDropLast s = ⟨l⟩ := by simp [strDropLast, hdata]
    rcases hu with rfl | rfl | rfl
    · have h1 : strLast s = some 'm' := by simp [strLast, hdata]
      simp [calculate_cutoff_date, h1, h2, hpy]
    · have h1 : strLast s = some 'd' := by simp [strLast, hdata]
      simp [calculate_cutoff_date, h1, h2, hpy]
    · have h1 : strLast s = some 'h' := by simp [strLast, hdata]
      simp [calculate_cutoff_date, h1, h2, hpy]
  · intro hno
    cases hl : strLast s with
    | none => simp [calculate_cutoff_date, hl]
    | some u =>
      have hm : u ≠ 'm' := fun h => hno u hl (Or.inl h)
      have hd : u ≠ 'd' := fun h => hno u hl (Or.inr (Or.inl h))
      have hh : u ≠ 'h' := fun h => hno u hl (Or.inr (Or.inr h))
      simp [calculate_cutoff_date, hl, hm, hd, hh]

/-- Witness for C6 at concrete inputs of each shape: each unit suffix with a
numeric prefix, a unit suffix with a non-numeric prefix, and a string with no
unit suffix. -/
theorem calculate_cutoff_date_spec_witness :
    calculate_cutoff_date now0 "2m" = .ok (subMonths now0 2) ∧
    calculate_cutoff_date now0 "45d" = .ok (subDays now0 45) ∧
    calculate_cutoff_date now0 "24h" = .ok (subHours now0 24) ∧
    calculate_cutoff_date now0 "xd" = .error intLiteralErrMsg ∧
    calculate_cutoff_date now0 "abc" = .error invalidTimeFrameMsg :=
  ⟨(calculate_cutoff_date_spec now0 "2m").1 ['2'] 2 rfl rfl,
   (calculate_cutoff_date_spec now0 "45d").2.1 ['4', '5'] 45 rfl rfl,
   (calculate_cutoff_date_spec now0 "24h").2.2.1 ['2', '4'] 24 rfl rfl,
   (calculate_cutoff_date_spec now0 "xd").2.2.2.1 ['x'] 'd' rfl (Or.inr (Or.inl rfl)) rfl,
   (calculate_cutoff_date_spec now0 "abc").2.2.2.2 (by
     intro u hu
     have hc : strLast "abc" = some 'c' := rfl
     rw [hc] at hu
     have : u = 'c' := (Option.some.inj hu).symm
     rw [this]
     decide)⟩

end Nuke

namespace Nuke

/-! ## C8: what escapes main and what is a printed diagnostic -/

theorem drPage_total (delSt : Int → Int) (org repo : String) (cutoff : DateTime)
    (limit : Option Int) :
    ∀ (rels : List Release) (c : Nat),
      (∀ r, r ∈ rels → (parseDT r.created_at).isSome = true) →
      ∃ res, drPage delSt org repo cutoff limit rels c = .ok res := by
  intro rels
  induction rels with
  | nil => intro c _; exact ⟨([], c, false), rfl⟩
  | cons r rest ih =>
    intro c hall
    have hps := hall r (List.mem_cons_self r rest)
    cases hp : parseDT r.created_at with
    | none => rw [hp] at hps; simp at hps
    | some d =>
      have ihr := fun c2 => ih c2 (fun q hq => hall q (List.mem_cons_of_mem _ hq))
      by_cases hlt : dtLt d cutoff = true
      · by_cases h204 : (delSt r.id == 204) = true
        · by_cases hlim : limitHit limit (c + 1) = true
          · refine ⟨([Ev.del (releaseDeleteUrl org repo r.id)], c + 1, true), ?_⟩
            rw [drPage]
            simp only [hp]
            rw [if_pos hlt, if_pos h204, if_pos hlim]
          · obtain ⟨⟨evs, c3, early⟩, hres⟩ := ihr (c + 1)
            refine ⟨(Ev.del (releaseDeleteUrl org repo r.id) :: evs, c3, early), ?_⟩
            rw [drPage]
            simp only [hp]
            rw [if_pos hlt, if_pos h204, if_neg (by simpa using hlim), hres]
        · obtain ⟨⟨evs, c3, early⟩, hres⟩ := ihr c
          refine ⟨(Ev.del (releaseDeleteUrl org repo r.id) :: evs, c3, early), ?_⟩
          rw [drPage]
          simp only [hp]
          rw [if_pos hlt, if_neg (by simpa using h204), hres]
      · obtain ⟨res, hres⟩ := ihr c
        refine ⟨res, ?_⟩
        rw [drPage]
        simp only [hp]
        rw [if_neg (by simpa using hlt)]
        exact hres

theorem drPages_total (delSt : Int → Int) (org repo : String) (cutoff : DateTime)
    (limit : Option Int) :
    ∀ (pages : List (Int × List Release)) (page c : Nat),
      (∀ pg, pg ∈ pages → ∀ r, r ∈ pg.2 → (parseDT r.created_at).isSome = true) →
      ∃ res, drPages delSt org repo cutoff limit pages page c = .ok res := by
  intro pages
  induction pages with
  | nil => intro page c _; exact ⟨([.get (releasesUrl org repo) (pageParams page) []], c), rfl⟩
  | cons p rest ih =>
    intro page c hall
    rcases p with ⟨st, rels⟩
    by_cases h200 : (st != 200) = true
    · refine ⟨([.get (releasesUrl org repo) (pageParams page) []], c), ?_⟩
      rw [drPages, if_pos h200]
    · by_cases hemp : rels.isEmpty = true
      · refine ⟨([.get (releasesUrl org repo) (pageParams page) []], c), ?_⟩
        rw [drPages, if_neg (by simpa using h200), if_pos hemp]
      · obtain ⟨⟨pevs, pc, early⟩, hpage⟩ :=
          drPage_total delSt org repo cutoff limit rels c
            (fun r hr => hall (st, rels) (List.mem_cons_self _ _) r hr)
        by_cases hearly : early = true
        · refine ⟨(.get (releasesUrl org repo) (pageParams page) [] :: pevs, pc), ?_⟩
          rw [drPages, if_neg (by simpa using h200), if_neg (by simpa using hemp), hpage]
          rw [hearly]
          rfl
        · by_cases hshort : rels.length < 50
          · refine ⟨(.get (releasesUrl org repo) (pageParams page) [] :: pevs, pc), ?_⟩
            rw [drPages, if_neg (by simpa using h200), if_neg (by simpa using hemp), hpage,
              (show early = false by simpa using hearly)]
            simp [hshort]
          · obtain ⟨⟨evs2, c3⟩, hrec2⟩ := ih (page + 1) pc
              (fun q hq => hall q (List.mem_cons_of_mem _ hq))
            refine ⟨(.get (releasesUrl org repo) (pageParams page) [] :: pevs ++ evs2, c3), ?_⟩
            rw [drPages, if_neg (by simpa using h200), if_neg (by simpa using hemp), hpage,
              (show early = false by simpa using hearly)]
            simp [hshort, hrec2]

/-- C8 amended: for invocations that survive argument parsing, every branch
of `main` other than release cleanup — all of `change`, and tag, branch and
issue cleanup — finishes normally for every world (HTTP failures and flag
combination problems are only printed diagnostics, so the process keeps its
default success exit status); release cleanup also finishes normally when
the time-frame string parses and the listed timestamps are well-formed; but
a release cleanup whose time-frame string is malformed (or missing) raises
an uncaught ValueError (or AttributeError) that escapes `main`, so the
process is terminated by the exception rather than exiting successfully. -/
theorem main_exit_behavior_amended :
    (∀ (now : DateTime) (w : World) (a : CleanupArgs), a.type ≠ some "releases" →
        ∃ evs, mainRun now w (.cleanup a) = .ok evs) ∧
    (∀ (now : DateTime) (w : World) (a : ChangeArgs),
        ∃ evs, mainRun now w (.change a) = .ok evs) ∧
    (∀ (now : DateTime) (w : World) (a : CleanupArgs) (s : String) (cutoff : DateTime),
        a.type = some "releases" → a.time_frame_gt = some s →
        calculate_cutoff_date now s = .ok cutoff →
        (∀ pg, pg ∈ w.rel.pages → ∀ r, r ∈ pg.2 → (parseDT r.created_at).isSome = true) →
        ∃ evs, mainRun now w (.cleanup a) = .ok evs) ∧
    (∀ (now : DateTime) (w : World) (a : CleanupArgs) (s e : String),
        a.type = some "releases" → a.time_frame_gt = some s →
        calculate_cutoff_date now s = .error e →
        mainRun now w (.cleanup a) = .error e) ∧
    (∀ (now : DateTime) (w : World) (a : CleanupArgs),
        a.type = some "releases" → a.time_frame_gt = none →
        ∃ e, mainRun now w (.cleanup a) = .error e) := by
  refine ⟨?_, ?_, ?_, ?_, ?_⟩
  · intro now w a hne
    have hb : (a.type == some "releases") = false := by
      simpa using hne
    simp only [mainRun, hb, Bool.false_eq_true, if_false]
    by_cases h2 : (a.type == some "tags") = true
    · exact ⟨_, by rw [if_pos h2]⟩
    · by_cases h3 : (a.type == some "branches") = true
      · exact ⟨_, by rw [if_neg h2, if_pos h3]⟩
      · by_cases h4 : (a.type == some "issues") = true
        · exact ⟨_, by rw [if_neg h2, if_neg h3, if_pos h4]⟩
        · exact ⟨[], by rw [if_neg h2, if_neg h3, if_neg h4]⟩
  · intro now w a
    simp only [mainRun]
    by_cases h1 : optTruthy a.change_name = true
    · by_cases h2 : (!optTruthy a.repo) = true
      · exact ⟨[], by rw [if_pos h1, if_pos h2]⟩
      · exact ⟨_, by rw [if_pos h1, if_neg h2]⟩
    · by_cases h3 : a.all_repos = true
      · by_cases h4 : optTruthy a.visibility = true
        · exact ⟨_, by rw [if_neg h1, if_pos h3, if_pos h4]⟩
        · exact ⟨[], by rw [if_neg h1, if_pos h3, if_neg h4]⟩
      · by_cases h5 : optTruthy a.repo = true
        · by_cases h6 : optTruthy a.visibility = true
          · exact ⟨_, by rw [if_neg h1, if_neg h3, if_pos h5, if_pos h6]⟩
          · exact ⟨[], by rw [if_neg h1, if_neg h3, if_pos h5, if_neg h6]⟩
        · exact ⟨[], by rw [if_neg h1, if_neg h3, if_neg h5]⟩
  · intro now w a s cutoff hty htf hcut hdates
    obtain ⟨⟨evs, c2⟩, hdr⟩ :=
      drPages_total w.rel.deleteStatus a.org a.repo cutoff a.limit w.rel.pages 1 0 hdates
    refine ⟨evs, ?_⟩
    simp only [mainRun, hty]
    rw [if_pos (by simp)]
    simp only [delete_releases, htf, hcut, hdr]
  · intro now w a s e hty htf hcut
    simp only [mainRun, hty]
    rw [if_pos (by simp)]
    simp only [delete_releases, htf, hcut]
  · intro now w a hty htf
    refine ⟨"AttributeError: NoneType object has no attribute endswith", ?_⟩
    simp only [mainRun, hty]
    rw [if_pos (by simp)]
    simp only [delete_releases, htf]

end Nuke

namespace Nuke

/-- C8 counterexample: a `cleanup --type releases` invocation with the
malformed time-frame string "soon".  `calculate_cutoff_date` raises
`ValueError`, which no caller catches, so the exception escapes `main`: the
process is terminated by an uncaught exception (a traceback and non-success
exit), not by printing a diagnostic and exiting with the default success
code. -/
theorem main_malformed_time_frame_cex :
    mainRun now0 wTrivC8 (.cleanup argsRelBadTf) = .error invalidTimeFrameMsg :=
  rfl

/-- Witness for the amended C8: a tags cleanup finishes normally against the
trivial world, while the same invocation with `--type releases` and the
malformed time frame escapes with the ValueError. -/
theorem main_exit_behavior_amended_witness :
    (∃ evs, mainRun now0 wTrivC8 (.cleanup argsTagsC8) = .ok evs) ∧
    mainRun now0 wTrivC8 (.cleanup argsRelBadTf) = .error invalidTimeFrameMsg :=
  ⟨main_exit_behavior_amended.1 now0 wTrivC8 argsTagsC8 (by decide),
   main_exit_behavior_amended.2.2.2.1 now0 wTrivC8 argsRelBadTf "soon" invalidTimeFrameMsg
     rfl rfl rfl⟩

end Nuke

namespace Nuke

/-- Witness for the amended C3: a stream of nothing but 403s, budget 3 —
the executor returns the last 403 after three cooldown-then-retry rounds. -/
theorem rate_limit_retry_amended_witness :
    make_request_with_retries .GET (fun _ => ⟨403, "rl"⟩) 3 =
      (.ok ⟨403, "rl"⟩, failTrace (fun _ => ⟨403, "rl"⟩) 0 3) ∧
    (∀ k, k < 3 → attemptSleep ((403 : Int)) = 60) :=
  rate_limit_retry_amended .GET (fun _ => ⟨403, "rl"⟩) 3 rfl (by decide) (fun _ _ => rfl)

/-- Witness for C7: one ordinary failure (500) then a success (200), budget
3 — the executor sleeps the short delay after the failure and returns the
200 response at once on the second call. -/
theorem make_request_with_retries_spec_witness :
    make_request_with_retries .GET respC7 3 =
      (.ok (respC7 1), failTrace respC7 0 1 ++ [.call 1 (respC7 1).status]) :=
  (make_request_with_retries_spec .GET respC7 3 1 rfl).1 (by decide) (by decide) (by decide)

end Nuke
